import Mathlib

/-!
Verification of the Wise grading-sync scripts (`main.py`, `upload_marked.py`).

This file gives a shallow embedding of the pure core of the two scripts:

* the filename sanitizer `safe_part` and the download-side filename encoding
  built in `main.main` (the identity codec, encode direction);
* the upload-side filename grammar `FILENAME_RE` of `upload_marked.py`
  (the identity codec, decode direction), embedded as an executable
  backtracking matcher `filenameMatch` with the same lazy-match semantics;
* the recursive document walks `find_any_timestamp`, `parse_dt` and
  `find_submission_lists_anywhere` over a JSON-like value type;
* the attachment normalizer `extract_attachments`;
* the retry wrapper `upload_file_to_wise` and the per-file upload loop;
* the recency filter and the image-scratch cleanup of the download loop.

Strings are modelled as `List Char`; Python `datetime` instants are modelled
as rational epoch-seconds (UTC); the external `dateutil` text parser and the
network are modelled as oracle parameters.
-/

/-- Python whitespace (the `\s` class and `str.strip()` set, ASCII range):
space, tab, newline, vertical tab, form feed, carriage return. -/
def pySpace (c : Char) : Bool :=
  c = ' ' || c = '\t' || c = '\n' || c = '\x0b' || c = '\x0c' || c = '\r'

/-- The character class of `re.sub(r'[<>:"/\\|?*\n\r\t]+', " ", s)` in
`safe_part`: Windows-path-illegal characters plus newline, carriage return
and tab. -/
def illegalChar (c : Char) : Bool :=
  c = '<' || c = '>' || c = ':' || c = '"' || c = '/' || c = '\\' ||
  c = '|' || c = '?' || c = '*' || c = '\n' || c = '\r' || c = '\t'

/-- Worker for `collapseRuns`: `inRun` records whether the previous character
was part of a run being replaced. -/
def collapseAux (p : Char → Bool) (r : Char) : Bool → List Char → List Char
  | _, [] => []
  | inRun, c :: rest =>
      if p c then
        if inRun then collapseAux p r true rest
        else r :: collapseAux p r true rest
      else c :: collapseAux p r false rest

/-- Replace every maximal run of characters satisfying `p` by the single
character `r` (the semantics of `re.sub(r"[...]+", r, s)`). -/
def collapseRuns (p : Char → Bool) (r : Char) (l : List Char) : List Char :=
  collapseAux p r false l

/-- Python `str.strip()`: drop leading and trailing whitespace. -/
def pyStrip (l : List Char) : List Char :=
  ((l.dropWhile pySpace).reverse.dropWhile pySpace).reverse

/-- Python `s.replace("__", "_")`: one left-to-right pass replacing
non-overlapping occurrences of a double underscore by a single one. -/
def replaceDU : List Char → List Char
  | '_' :: '_' :: rest => '_' :: replaceDU rest
  | c :: rest => c :: replaceDU rest
  | [] => []

/-- Does the string contain two adjacent underscores? -/
def hasDU : List Char → Bool
  | '_' :: '_' :: _ => true
  | _ :: rest => hasDU rest
  | [] => false

/-- `safe_part` from `main.py`:
strip; collapse runs of path-illegal characters to a space; collapse
whitespace runs to a space and strip; replace `__` by `_` once; cap length. -/
def safe_part (s : List Char) (maxLen : Nat) : List Char :=
  let s1 := pyStrip s
  let s2 := collapseRuns illegalChar ' ' s1
  let s3 := pyStrip (collapseRuns pySpace ' ' s2)
  let s4 := replaceDU s3
  s4.take maxLen

/-- The double-underscore segment delimiter of the filename grammar. -/
def du : List Char := ['_', '_']

/-- The character class `[a-f0-9]` compiled with `re.IGNORECASE`:
decimal digits and the letters a-f in either case. -/
def hexDigit (c : Char) : Bool :=
  ('0' ≤ c && c ≤ '9') || ('a' ≤ c && c ≤ 'f') || ('A' ≤ c && c ≤ 'F')

/-- The groups captured by a successful `FILENAME_RE.match`. -/
structure FileGroups where
  cls : List Char
  assessment : List Char
  student : List Char
  studentId : List Char
deriving DecidableEq, Repr

/-- Python `$` without `re.MULTILINE` matches at the end of the string and
also just before a newline that sits at the very end: on the reversed
character list, discard one leading newline, if present. -/
def stripTrailingNl (r : List Char) : List Char :=
  match r with
  | c :: rest => if c = '\n' then rest else c :: rest
  | [] => []

/-- Does `l` match the regex tail `.+?\sMarked\.pdf$` (case-insensitive,
`.` not matching a newline, `$` also matching just before one newline at
the very end): after discarding at most one trailing newline, a non-empty
newline-free part, one whitespace character, then `Marked.pdf` in any
letter case, at the end. -/
def tailOk (l : List Char) : Bool :=
  let r := stripTrailingNl l.reverse
  decide ((r.take 10).map Char.toLower = "fdp.dekram".toList) &&
  (match r.drop 10 with
   | w :: rest => pySpace w && !rest.isEmpty && rest.all (fun c => c != '\n')
   | [] => false)

/-- Match `[a-f0-9]{24}__` at the head of `l`, returning the 24 hex
characters and the remainder after the delimiter. -/
def hex24Delim (l : List Char) : Option (List Char × List Char) :=
  if (l.take 24).length = 24 ∧ (l.take 24).all hexDigit ∧ (l.drop 24).take 2 = du then
    some (l.take 24, l.drop 26)
  else none

/-- One candidate split for the lazy `(?P<student>.+?)__` group: the student
group takes the first `n` characters of `l`, which must be newline-free and
followed by `__`, a 24-hex student id, `__`, and a valid tail. -/
def trySplitStudent (l : List Char) (n : Nat) : Option (List Char × List Char) :=
  if (l.take n).all (fun c => c != '\n') ∧ (l.drop n).take 2 = du then
    match hex24Delim (l.drop (n + 2)) with
    | some (sid, rest) => if tailOk rest then some (l.take n, sid) else none
    | none => none
  else none

/-- Lazy scan for the student group: the shortest non-empty prefix whose
split succeeds wins, exactly as the backtracking regex engine prefers. -/
def studentScan (l : List Char) : Option (List Char × List Char) :=
  (List.range l.length).findSome? (fun k => trySplitStudent l (k + 1))

/-- One candidate split for the lazy `(?P<class>.+?)__` group, continuing
with the assessment id, the student scan, and the tail. -/
def trySplitClass (l : List Char) (n : Nat) : Option FileGroups :=
  if (l.take n).all (fun c => c != '\n') ∧ (l.drop n).take 2 = du then
    match hex24Delim (l.drop (n + 2)) with
    | some (a, rest) =>
      match studentScan rest with
      | some (s, sid) => some ⟨l.take n, a, s, sid⟩
      | none => none
    | none => none
  else none

/-- `FILENAME_RE.match` from `upload_marked.py`: the anchored pattern
`^(.+?)__([a-f0-9]{24})__(.+?)__([a-f0-9]{24})__.+?\sMarked\.pdf$` with
`re.IGNORECASE`, with lazy groups resolved in backtracking preference
order (shortest class first, then shortest student). Returns the captured
groups, or `none` when the name does not match. -/
def filenameMatch (l : List Char) : Option FileGroups :=
  (List.range l.length).findSome? (fun k => trySplitClass l (k + 1))

/-- `out_name.lower().endswith(".pdf")`. -/
def pdfEnds (l : List Char) : Bool :=
  (l.map Char.toLower).reverse.take 4 == ['f', 'd', 'p', '.']

/-- The download-side filename construction of `main.main`: join the
sanitized class label, the assessment label, the sanitized student label and
the student id with `__`, collapse whitespace runs and strip the joined
prefix, append `__` and the sanitized original filename, and append `.pdf`
when the name does not already end with it (case-insensitively). -/
def encodeName (cls assess stu sid orig : List Char) : List Char :=
  let pref0 := cls ++ du ++ assess ++ du ++ stu ++ du ++ sid
  let pref1 := pyStrip (collapseRuns pySpace ' ' pref0)
  let nm := pref1 ++ du ++ orig
  if pdfEnds nm then nm else nm ++ ['.', 'p', 'd', 'f']

/-- The human marking step described by the app: insert a space and `Marked`
immediately before the 4-character `.pdf` extension. -/
def addMarked (l : List Char) : List Char :=
  l.take (l.length - 4) ++ [' ', 'M', 'a', 'r', 'k', 'e', 'd'] ++ l.drop (l.length - 4)

/-- A filename, after discarding at most one trailing newline (which the
`$` anchor of `FILENAME_RE` tolerates), ends with one whitespace character,
then `Marked.pdf` in any letter case (what `FILENAME_RE` actually requires
of the suffix). -/
def wsMarkedEndNl (l : List Char) : Bool :=
  let r := stripTrailingNl l.reverse
  decide ((r.take 10).map Char.toLower = "fdp.dekram".toList) &&
  (match r.drop 10 with
   | w :: _ => pySpace w
   | [] => false)

/-- A filename ends with one whitespace character, then `Marked.pdf` in any
letter case, at the very end (no trailing newline). -/
def wsMarkedEnd (l : List Char) : Bool :=
  let r := l.reverse
  decide ((r.take 10).map Char.toLower = "fdp.dekram".toList) &&
  (match r.drop 10 with
   | w :: _ => pySpace w
   | [] => false)

/-- A filename ends with a literal space, then `Marked.pdf` in any letter
case (the suffix form stated by the specification). -/
def spaceMarkedEnd (l : List Char) : Bool :=
  let r := l.reverse
  decide ((r.take 10).map Char.toLower = "fdp.dekram".toList) &&
  (match r.drop 10 with
   | w :: _ => w = ' '
   | [] => false)

/-- A JSON-like value, the shape of the documents the Wise API returns.
Objects are modelled as association lists in key order (Python dicts
preserve insertion order and have unique keys). Numbers are modelled as
rationals, which embed both the int and float timestamp forms the scripts
handle. -/
inductive JVal where
  | null : JVal
  | bool : Bool → JVal
  | num : ℚ → JVal
  | str : String → JVal
  | arr : List JVal → JVal
  | obj : List (String × JVal) → JVal

/-- Python `d.get(k)`: the value under the first matching key, if any. -/
def jget (kvs : List (String × JVal)) (k : String) : Option JVal :=
  (kvs.find? (fun kv => kv.1 == k)).map (fun kv => kv.2)

/-- `parse_dt` from `main.py`, on one value, on the fragment where
`datetime.fromtimestamp` does not raise — see `parse_dtR` below for the
model with the out-of-range `ValueError` made explicit. Instants are
rational UTC epoch-seconds. Falsy inputs (`None`, `0`, `0.0`, `False`,
`""`) return `None`; numbers above 10,000,000,000 are epoch-milliseconds,
other numbers epoch-seconds; Python `bool` is an `int` subtype, so `True`
parses as epoch second 1. Free-text strings go to the external `dateutil`
parser, modelled by the oracle `o` (which already absorbs the UTC
normalization and the catch-all exception handler wrapping the string
branch). -/
def parse_dt (o : String → Option ℚ) : JVal → Option ℚ
  | .num v => if v = 0 then none else if 10000000000 < v then some (v / 1000) else some v
  | .bool b => if b then some 1 else none
  | .str s => if s = "" then none else o s
  | _ => none

/-- `parse_dt` applied to the result of a `d.get(k)` (absent keys behave
like `None`). -/
def parseOpt (o : String → Option ℚ) : Option JVal → Option ℚ
  | some v => parse_dt o v
  | none => none

/-- The fixed timestamp key aliases of `find_any_timestamp`. -/
def COMMON_KEYS : List String :=
  ["submittedAt", "submitted_at", "submissionTime", "submittedOn",
   "createdAt", "updatedAt", "time", "timestamp", "date"]

mutual

/-- The recursive walk of `find_any_timestamp`: at each dict, parse the
values under the timestamp aliases (in alias order), then recurse into all
values in insertion order; recurse through lists elementwise. Returns the
parsed instants in the order the Python code appends them to `found`. -/
def collectTs (o : String → Option ℚ) : JVal → List ℚ
  | .obj kvs => COMMON_KEYS.filterMap (fun k => parseOpt o (jget kvs k)) ++ collectTsO o kvs
  | .arr xs => collectTsL o xs
  | _ => []

/-- `collectTs` over the values of a dict, in insertion order. -/
def collectTsO (o : String → Option ℚ) : List (String × JVal) → List ℚ
  | [] => []
  | (_, v) :: rest => collectTs o v ++ collectTsO o rest

/-- `collectTs` over the elements of a list. -/
def collectTsL (o : String → Option ℚ) : List JVal → List ℚ
  | [] => []
  | v :: rest => collectTs o v ++ collectTsL o rest

end

/-- `find_any_timestamp` from `main.py`: the maximum collected instant, or
`None` when nothing parsed. -/
def find_any_timestamp (o : String → Option ℚ) (x : JVal) : Option ℚ :=
  (collectTs o x).max?

mutual

/-- Specification-side collection: the raw values sitting under the
timestamp-aliased keys anywhere in the record, before any parsing. -/
def tsRaw : JVal → List JVal
  | .obj kvs => COMMON_KEYS.filterMap (fun k => jget kvs k) ++ tsRawO kvs
  | .arr xs => tsRawL xs
  | _ => []

/-- `tsRaw` over the values of a dict. -/
def tsRawO : List (String × JVal) → List JVal
  | [] => []
  | (_, v) :: rest => tsRaw v ++ tsRawO rest

/-- `tsRaw` over the elements of a list. -/
def tsRawL : List JVal → List JVal
  | [] => []
  | v :: rest => tsRaw v ++ tsRawL rest

end

/-- The recency filter of the download loop (`main.main`): a submission is
kept unless a timestamp was found and it is strictly before the cutoff. -/
def recencyKeep (o : String → Option ℚ) (since : ℚ) (sub : JVal) : Bool :=
  match find_any_timestamp o sub with
  | none => true
  | some ts => !(decide (ts < since))

/-- `datetime.fromtimestamp(v, tz=timezone.utc)` succeeds exactly when the
resulting instant lies within `datetime`'s representable years 1 to 9999:
epoch-seconds from `-62135596800` (0001-01-01T00:00:00Z) up to but not
including `253402300800` (10000-01-01T00:00:00Z). Outside that range it
raises `ValueError`. (The boundary is modelled at whole-value scale; the
float rounding within half a microsecond of the bounds is below the
model's resolution.) -/
def tsInRange (v : ℚ) : Bool :=
  decide (-62135596800 ≤ v) && decide (v < 253402300800)

/-- `parse_dt` from `main.py` with the `datetime.fromtimestamp` range error
made explicit: on a nonzero number, the chosen seconds value (the value
itself, or value/1000 above the 10,000,000,000 millisecond threshold) is
fed to `fromtimestamp`, which raises `ValueError` outside `tsInRange`; the
`try/except` in `parse_dt` wraps only the string branch, so the numeric
error escapes. `Except.error ()` marks that uncaught exception. -/
def parse_dtR (o : String → Option ℚ) : JVal → Except Unit (Option ℚ)
  | .num v =>
    if v = 0 then .ok none
    else if 10000000000 < v then
      if tsInRange (v / 1000) then .ok (some (v / 1000)) else .error ()
    else
      if tsInRange v then .ok (some v) else .error ()
  | .bool b => .ok (if b then some 1 else none)
  | .str s => .ok (if s = "" then none else o s)
  | _ => .ok none

/-- `parse_dtR` applied to the result of a `d.get(k)` (absent keys behave
like `None`). -/
def parseOptR (o : String → Option ℚ) : Option JVal → Except Unit (Option ℚ)
  | some v => parse_dtR o v
  | none => .ok none

/-- The `for k in COMMON_KEYS` loop of the `find_any_timestamp` walk:
collect the parsed instants in alias order, aborting at the first value
whose `parse_dt` raises. -/
def keysTsR (o : String → Option ℚ) (kvs : List (String × JVal)) :
    List String → Except Unit (List ℚ)
  | [] => .ok []
  | k :: ks =>
    match parseOptR o (jget kvs k) with
    | .error e => .error e
    | .ok d =>
      match keysTsR o kvs ks with
      | .error e => .error e
      | .ok r => .ok (d.toList ++ r)

mutual

/-- The recursive walk of `find_any_timestamp` with the numeric range
error propagated: the walk aborts at the first value whose `parse_dt`
raises, in the exact order the Python loops visit values. -/
def collectTsR (o : String → Option ℚ) : JVal → Except Unit (List ℚ)
  | .obj kvs =>
    match keysTsR o kvs COMMON_KEYS with
    | .error e => .error e
    | .ok l1 =>
      match collectTsRO o kvs with
      | .error e => .error e
      | .ok l2 => .ok (l1 ++ l2)
  | .arr xs => collectTsRL o xs
  | _ => .ok []

/-- `collectTsR` over the values of a dict, in insertion order. -/
def collectTsRO (o : String → Option ℚ) : List (String × JVal) → Except Unit (List ℚ)
  | [] => .ok []
  | (_, v) :: rest =>
    match collectTsR o v with
    | .error e => .error e
    | .ok a =>
      match collectTsRO o rest with
      | .error e => .error e
      | .ok b => .ok (a ++ b)

/-- `collectTsR` over the elements of a list. -/
def collectTsRL (o : String → Option ℚ) : List JVal → Except Unit (List ℚ)
  | [] => .ok []
  | v :: rest =>
    match collectTsR o v with
    | .error e => .error e
    | .ok a =>
      match collectTsRL o rest with
      | .error e => .error e
      | .ok b => .ok (a ++ b)

end

/-- `find_any_timestamp` from `main.py` with the `fromtimestamp` range
error propagated: when the walk completes, the maximum collected instant
(`None` when nothing parsed); when a numeric value under scrutiny is out
of `datetime`'s range, the uncaught `ValueError` aborts the call. -/
def find_any_timestampR (o : String → Option ℚ) (x : JVal) :
    Except Unit (Option ℚ) :=
  match collectTsR o x with
  | .error e => .error e
  | .ok l => .ok l.max?

/-- The fixed submission-shaped key names of the scanner. -/
def SUBMISSION_HINT_KEYS : List String :=
  ["studentId", "student_id", "submissionId", "submission_id",
   "attachments", "files", "submittedAt"]

/-- `looks_like_submission_dict`: a dict containing at least one
submission-shaped key. Non-dict values never qualify. -/
def looksLikeSubmission : JVal → Bool
  | .obj kvs => kvs.any (fun kv => SUBMISSION_HINT_KEYS.contains kv.1)
  | _ => false

/-- Is the value a dict? -/
def isObjV : JVal → Bool
  | .obj _ => true
  | _ => false

/-- The scanner's score of an array: how many of its first 10 elements look
like submission dicts. -/
def subScore (xs : List JVal) : Nat :=
  (xs.take 10).countP looksLikeSubmission

/-- The candidacy test applied to each all-dict array node: non-empty, all
elements dicts, and positive score. -/
def fslCandidate (xs : List JVal) : Bool :=
  !xs.isEmpty && xs.all isObjV && decide (0 < subScore xs)

/-- Path bookkeeping of the walk: `f"{path}.{k}" if path else str(k)`. -/
def childPath (path k : String) : String :=
  if path = "" then k else path ++ "." ++ k

mutual

/-- The walk of `find_submission_lists_anywhere`: recurse through dicts in
key order; at each list node, first append it as a match when it is a
non-empty all-dict list with positive score, then recurse into its
elements. Matches are collected in traversal order. -/
def fslWalk : JVal → String → List (String × List JVal)
  | .obj kvs, path => fslWalkO kvs path
  | .arr xs, path =>
      (if fslCandidate xs then [(path, xs)] else []) ++ fslWalkL xs path 0
  | _, _ => []

/-- `fslWalk` over dict entries. -/
def fslWalkO : List (String × JVal) → String → List (String × List JVal)
  | [], _ => []
  | (k, v) :: rest, path => fslWalk v (childPath path k) ++ fslWalkO rest path

/-- `fslWalk` over list elements, tracking the element index for the path. -/
def fslWalkL : List JVal → String → Nat → List (String × List JVal)
  | [], _, _ => []
  | v :: rest, path, idx =>
      fslWalk v (path ++ "[" ++ toString idx ++ "]") ++ fslWalkL rest path (idx + 1)

end

/-- `find_submission_lists_anywhere` from `main.py`. -/
def find_submission_lists_anywhere (x : JVal) : List (String × List JVal) :=
  fslWalk x ""

/-- The selection step of `main.main`:
`candidate_lists.sort(key=lambda t: len(t[1]), reverse=True)` followed by
`candidate_lists[0]`. Python's sort is stable, so this is the first
candidate, in traversal order, of maximal length. -/
def pickLargest : List (String × List JVal) → Option (String × List JVal)
  | [] => none
  | c :: rest =>
      some (rest.foldl (fun best x => if best.2.length < x.2.length then x else best) c)

/-- An array value occurring somewhere inside a document (specification-side
notion of "anywhere in the nested response"). -/
inductive ArrOccurs : List JVal → JVal → Prop
  | here (xs : List JVal) : ArrOccurs xs (.arr xs)
  | inArr {xs : List JVal} {l : List JVal} {v : JVal} :
      v ∈ l → ArrOccurs xs v → ArrOccurs xs (.arr l)
  | inObj {xs : List JVal} {kvs : List (String × JVal)} {k : String} {v : JVal} :
      (k, v) ∈ kvs → ArrOccurs xs v → ArrOccurs xs (.obj kvs)

/-- Python truthiness for JSON-like values. -/
def pyTruthy : JVal → Bool
  | .null => false
  | .bool b => b
  | .num q => q != 0
  | .str s => s != ""
  | .arr xs => !xs.isEmpty
  | .obj kvs => !kvs.isEmpty

/-- Python `str(...)` on a JSON-like value. Strings are returned as-is, the
only case the scripts' comparisons and filename handling can distinguish;
numbers render via the rational model and containers are abbreviated, which
is inessential because such values only ever flow into comparisons against
fixed keywords like `"pdf"`, which they fail either way. -/
def pyStr : JVal → String
  | .str s => s
  | .bool b => if b then "True" else "False"
  | .null => "None"
  | .num q => toString q
  | .arr _ => "[...]"
  | .obj _ => "\x7b...\x7d"

/-- Python `str.lower()` for the ASCII range, written over the character
list so that it evaluates by kernel reduction. -/
def strLower (s : String) : String :=
  (s.toList.map Char.toLower).asString

/-- The value of a Python `x or y or ...` chain over optional lookups:
the first truthy value, if any. -/
def firstTruthy (l : List (Option JVal)) : Option JVal :=
  l.findSome? (fun ov =>
    match ov with
    | some v => if pyTruthy v then some v else none
    | none => none)

/-- `str(a.get(...) or a.get(...) or "")`: the first truthy value as a
string, defaulting to the empty string. -/
def strOfFirst (l : List (Option JVal)) : String :=
  match firstTruthy l with
  | some v => pyStr v
  | none => ""

/-- `pathlib.PurePath(s).name` (with trailing slashes stripped, as pathlib
does): the final path component. -/
def lastBaseName (s : List Char) : List Char :=
  ((s.reverse.dropWhile (fun c => c == '/')).takeWhile (fun c => c != '/')).reverse

/-- `pathlib.PurePath(s).suffix`: the last extension of the final
component, empty when the dot is leading or trailing or absent. -/
def pySuffix (s : List Char) : List Char :=
  let rb := (lastBaseName s).reverse
  let j := rb.findIdx (fun c => c == '.')
  if 0 < j ∧ j + 1 < rb.length then (rb.take (j + 1)).reverse else []

/-- `urlparse(url).path`: strip a leading `scheme:`, skip a `//netloc`, and
cut the rest at the first query or fragment delimiter. -/
def urlPath (u : List Char) : List Char :=
  let pre := u.takeWhile (fun c => c != ':')
  let rest :=
    if pre.length < u.length ∧ pre ≠ [] ∧
        pre.all (fun c => c.isAlpha || c.isDigit || c == '+' || c == '-' || c == '.') ∧
        (pre.take 1).all Char.isAlpha then
      u.drop (pre.length + 1)
    else u
  let rest2 :=
    if rest.take 2 = ['/', '/'] then
      (rest.drop 2).dropWhile (fun c => c != '/' && c != '?' && c != '#')
    else rest
  rest2.takeWhile (fun c => c != '?' && c != '#')

/-- `url.startswith("http")`. -/
def startsWithHttp (s : String) : Bool :=
  s.toList.take 4 == ['h', 't', 't', 'p']

/-- The image extensions `IMAGE_EXTS` of `main.py`. -/
def IMAGE_EXTS : List String := [".png", ".jpg", ".jpeg", ".webp"]

/-- The explicit image type tags accepted by `extract_attachments`. -/
def imageTypeTags : List String := ["image", "png", "jpg", "jpeg", "webp"]

/-- One attachment descriptor as built by `extract_attachments`. -/
structure Attachment where
  kind : String
  url : String
  filename : String
  s3Key : String
deriving DecidableEq, Repr

/-- The loop state of `extract_attachments`. Each picked descriptor also
carries, as specification-side ghost data, the dedup track it was admitted
on (`true` = storage-key track, `false` = lowercased-name track) and the
dedup key used; the script itself only keeps the descriptor. -/
structure ExtSt where
  picked : List (Attachment × Bool × String)
  seenKeys : List String
  seenNames : List String
deriving DecidableEq, Repr

/-- The synthesized filename for an entry with no filename field:
`pathlib.Path(urlparse(url).path).name or f"attachment{ext}"`. -/
def synthName (url ext : String) : String :=
  let b := (lastBaseName (urlPath url.toList)).asString
  if b = "" then "attachment" ++ ext else b

/-- The last step of building one attachment candidate: the descriptor
together with its dedup track and dedup key — the storage key when one is
present, else the lowercased filename-or-url (`keyname`). -/
def candFinish (kind url fname s3key keyname : String) : Attachment × Bool × String :=
  if s3key ≠ "" then (⟨kind, url, fname, s3key⟩, true, s3key)
  else (⟨kind, url, fname, s3key⟩, false, keyname)

/-- The per-entry computation of the `extract_attachments` loop body, up to
but not including the dedup decision (which needs the loop state): resolve
the type tag, filename, storage key and URL, reject entries without an
absolute http(s) URL, classify as pdf/image or reject, and synthesize a
filename when none is present. Returns the descriptor together with the
dedup track (`true` = storage-key, `false` = lowercased-name) and the dedup
key the loop will use. The filename synthesis is pure, so hoisting it
before the dedup test is observationally identical to the script. -/
def entryCandidate (av : JVal) : Option (Attachment × Bool × String) :=
  match av with
  | .obj a =>
    let aType := strLower (strOfFirst [jget a "type"])
    let fname0 := strOfFirst [jget a "filename", jget a "fileName", jget a "name"]
    let s3key := strOfFirst [jget a "s3Key", jget a "key"]
    match firstTruthy [jget a "path", jget a "s3FilePath", jget a "url", jget a "downloadUrl"] with
    | some (.str url) =>
      if startsWithHttp url then
        let ext :=
          if fname0 ≠ "" then strLower (pySuffix fname0.toList).asString
          else strLower (pySuffix (urlPath url.toList)).asString
        let kindOpt : Option String :=
          if aType = "pdf" ∨ ext = ".pdf" then some "pdf"
          else if aType ∈ imageTypeTags ∨ ext ∈ IMAGE_EXTS then some "image"
          else none
        match kindOpt with
        | none => none
        | some kind =>
          let fname := if fname0 = "" then synthName url ext else fname0
          some (candFinish kind url fname s3key
                 (strLower (if fname0 ≠ "" then fname0 else url)))
      else none
    | _ => none
  | _ => none

/-- The loop body of `extract_attachments` for one raw attachment entry:
skip unusable entries, and apply first-occurrence-wins dedup on the track
the entry belongs to. -/
def extractStep (st : ExtSt) (av : JVal) : ExtSt :=
  match entryCandidate av with
  | none => st
  | some (d, true, key) =>
    if key ∈ st.seenKeys then st
    else { picked := st.picked ++ [(d, true, key)],
           seenKeys := st.seenKeys ++ [key],
           seenNames := st.seenNames }
  | some (d, false, key) =>
    if key ∈ st.seenNames then st
    else { picked := st.picked ++ [(d, false, key)],
           seenKeys := st.seenKeys,
           seenNames := st.seenNames ++ [key] }

/-- `sub.get("attachments")` with the non-list guard of the script. -/
def attachmentsOf (sub : List (String × JVal)) : List JVal :=
  match jget sub "attachments" with
  | some (.arr xs) => xs
  | _ => []

/-- The full loop of `extract_attachments`, with ghost dedup data. -/
def extractRun (entries : List JVal) : ExtSt :=
  entries.foldl extractStep ⟨[], [], []⟩

/-- `extract_attachments` from `main.py`: the picked descriptors, in source
order. -/
def extract_attachments (sub : List (String × JVal)) : List Attachment :=
  (extractRun (attachmentsOf sub)).picked.map (fun p => p.1)

/-- The per-descriptor dedup key as the specification words it: the storage
key when present, else the lowercased filename-or-url. -/
def specDedupeKey (d : Attachment) : String :=
  if d.s3Key ≠ "" then d.s3Key
  else strLower (if d.filename ≠ "" then d.filename else d.url)

/-- `MAX_RETRIES` from `upload_marked.py`. -/
def MAX_RETRIES : Nat := 3

/-- `RETRY_DELAY` (seconds) from `upload_marked.py`. -/
def RETRY_DELAY : Nat := 2

/-- The retry loop shape of `upload_file_to_wise`: attempt numbers `start`,
`start+1`, ... are tried against the handshake oracle `f` (`none` models an
exception anywhere in the initiate/put/complete sequence of that attempt)
until one succeeds or the allowance runs out. -/
def tryAttempts (f : Nat → Option α) : Nat → Nat → Option α
  | _, 0 => none
  | start, n + 1 =>
    match f start with
    | some v => some v
    | none => tryAttempts f (start + 1) n

/-- `upload_file_to_wise` from `upload_marked.py`: up to `MAX_RETRIES`
whole-handshake attempts, sleeping `RETRY_DELAY` between them (time is not
modelled); `none` means the last error was re-raised. -/
def upload_file_to_wise (f : Nat → Option α) : Option α :=
  tryAttempts f 1 MAX_RETRIES

/-- The `uploaded`/`skipped`/`failed` counters of the upload loop. -/
structure Counters where
  uploaded : Nat
  skipped : Nat
  failed : Nat
deriving DecidableEq, Repr

/-- One file of the upload loop: its decode result, its handshake oracle,
and whether the follow-up `attach_feedback` call succeeds. -/
structure FileTask (α : Type) where
  decoded : Option FileGroups
  handshake : Nat → Option α
  feedbackOk : Bool

/-- The body of the upload loop of `upload_marked.main` for one file:
no regex match counts a skip; an exhausted upload or a failed feedback call
counts a failure; otherwise the file counts as uploaded. -/
def processFile (t : FileTask α) (c : Counters) : Counters :=
  match t.decoded with
  | none => { c with skipped := c.skipped + 1 }
  | some _ =>
    match upload_file_to_wise t.handshake with
    | some _ =>
      if t.feedbackOk then { c with uploaded := c.uploaded + 1 }
      else { c with failed := c.failed + 1 }
    | none => { c with failed := c.failed + 1 }

/-- The upload loop over a whole folder of files. -/
def processBatch (ts : List (FileTask α)) (c : Counters) : Counters :=
  ts.foldl (fun acc t => processFile t acc) c

/-- Specification-side outcome classifier for one upload-loop file. -/
def isUploadedTask (t : FileTask α) : Bool :=
  t.decoded.isSome && (upload_file_to_wise t.handshake).isSome && t.feedbackOk

/-- Specification-side skip classifier: the name did not decode. -/
def isSkippedTask (t : FileTask α) : Bool :=
  t.decoded.isNone

/-- Specification-side failure classifier: decoded, but the upload retries
were exhausted or the feedback call failed. -/
def isFailedTask (t : FileTask α) : Bool :=
  t.decoded.isSome && (!(upload_file_to_wise t.handshake).isSome || !t.feedbackOk)

/-- Outcome of one image download in the image-merge branch. `download_url`
creates the output file only after the GET succeeds, so an early failure
leaves nothing while a mid-stream failure leaves a partial file; only fully
successful downloads are appended to `image_paths`. -/
inductive DlResult where
  | ok : DlResult
  | failEarly : DlResult
  | failLate : DlResult
deriving DecidableEq, Repr

/-- The scratch-directory state of the image-merge branch: which files the
per-submission `_tmp_images` directory holds, and the `image_paths` list.
Files are identified by the index of the attachment that produced them
(`unique_path` guarantees each download gets a fresh path). -/
structure ScratchSt where
  scratch : List Nat
  imagePaths : List Nat
deriving DecidableEq, Repr

/-- The image download loop over attachment indices `0..n-1`, with the
per-index outcome given by `dl`. -/
def downloadImages (dl : Nat → DlResult) : Nat → ScratchSt
  | 0 => ⟨[], []⟩
  | n + 1 =>
    let st := downloadImages dl n
    match dl n with
    | .ok => ⟨st.scratch ++ [n], st.imagePaths ++ [n]⟩
    | .failEarly => st
    | .failLate => ⟨st.scratch ++ [n], st.imagePaths⟩

/-- The scratch files left after one submission's image-merge branch: the
downloads run, the conversion succeeds or fails (`convertOk` — it writes
outside the scratch directory and its exception is caught), and the
`finally` block unlinks exactly the paths recorded in `image_paths`. -/
def scratchAfterCleanup (dl : Nat → DlResult) (n : Nat) (convertOk : Bool) : List Nat :=
  let st := downloadImages dl n
  st.imagePaths.foldl List.erase st.scratch

/-- No two adjacent characters are both whitespace. -/
def wsRel (a b : Char) : Prop := ¬(pySpace a = true ∧ pySpace b = true)

/-- A well-behaved sanitized label for the round-trip theorem: non-empty,
free of the `__` delimiter sequence, with no whitespace runs and every
whitespace character a plain space. -/
def labelOk (l : List Char) : Prop :=
  l ≠ [] ∧ hasDU l = false ∧ List.Chain' wsRel l ∧ ∀ c ∈ l, pySpace c = true → c = ' '

/-- Executable check that no two adjacent characters are both whitespace. -/
def noWsRun : List Char → Bool
  | a :: b :: rest => (!(pySpace a && pySpace b)) && noWsRun (b :: rest)
  | _ => true

/-- The stem of the original filename: what precedes the final `.pdf` when
the name already ends with it (case-insensitively), else the whole name. -/
def origStem (orig : List Char) : List Char :=
  if pdfEnds orig then orig.take (orig.length - 4) else orig

/-- A submission-shaped element for the discovery scenario. -/
def scenarioSubmission (sid : String) : JVal :=
  .obj [("studentId", .str sid), ("attachments", .arr [])]

/-- The discovery scenario document of the specification: one 2-element
all-dict array with no submission-shaped keys, and one 5-element array whose
elements have `studentId`/`attachments` keys. -/
def scenarioDoc : JVal :=
  .obj [("data", .obj [
    ("meta", .arr [.obj [("x", .num 1)], .obj [("y", .num 2)]]),
    ("submissions", .arr [scenarioSubmission "s1", scenarioSubmission "s2",
      scenarioSubmission "s3", scenarioSubmission "s4", scenarioSubmission "s5"])])]



theorem mem_collapseAux {p : Char → Bool} {r : Char} :
    ∀ {b : Bool} {l : List Char} {c : Char}, c ∈ collapseAux p r b l →
      c = r ∨ (c ∈ l ∧ p c = false) := by
  intro b l
  induction l generalizing b with
  | nil => intro c h; simp [collapseAux] at h
  | cons a rest ih =>
    intro c h
    by_cases hp : p a
    · cases b with
      | true =>
        simp only [collapseAux, hp, if_true] at h
        rcases ih h with h1 | ⟨h2, h3⟩
        · exact Or.inl h1
        · exact Or.inr ⟨List.mem_cons_of_mem _ h2, h3⟩
      | false =>
        simp [collapseAux, hp] at h
        rcases h with h1 | h1
        · exact Or.inl h1
        · rcases ih h1 with h2 | ⟨h2, h3⟩
          · exact Or.inl h2
          · exact Or.inr ⟨List.mem_cons_of_mem _ h2, h3⟩
    · simp [collapseAux, hp] at h
      rcases h with h1 | h1
      · subst h1; exact Or.inr ⟨List.mem_cons_self _ _, by simpa using hp⟩
      · rcases ih h1 with h2 | ⟨h2, h3⟩
        · exact Or.inl h2
        · exact Or.inr ⟨List.mem_cons_of_mem _ h2, h3⟩


theorem headNotP_collapseAux (p : Char → Bool) (r : Char) :
    ∀ (l : List Char), ∀ c ∈ (collapseAux p r true l).head?, p c = false := by
  intro l
  induction l with
  | nil => simp [collapseAux]
  | cons a rest ih =>
    by_cases hp : p a
    · simpa [collapseAux, hp] using ih
    · simp [collapseAux, hp]

theorem chain'_collapseWs : ∀ (b : Bool) (l : List Char),
    List.Chain' wsRel (collapseAux pySpace ' ' b l) := by
  intro b l
  induction l generalizing b with
  | nil => simp [collapseAux]
  | cons a rest ih =>
    by_cases hp : pySpace a
    · cases b with
      | true => simpa [collapseAux, hp] using ih true
      | false =>
        have he : collapseAux pySpace ' ' false (a :: rest)
            = ' ' :: collapseAux pySpace ' ' true rest := by
          simp [collapseAux, hp]
        rw [he, List.chain'_cons']
        refine ⟨?_, ih true⟩
        intro y hy
        have hn := headNotP_collapseAux pySpace ' ' rest y hy
        exact fun hc => by simp [hn] at hc
    · have he : collapseAux pySpace ' ' b (a :: rest)
          = a :: collapseAux pySpace ' ' false rest := by
        simp [collapseAux, hp]
      rw [he, List.chain'_cons']
      constructor
      · intro y _ hc
        exact hp hc.1
      · exact ih false


theorem mem_pyStrip {l : List Char} {c : Char} (h : c ∈ pyStrip l) : c ∈ l := by
  unfold pyStrip at h
  rw [List.mem_reverse] at h
  have h2 := (List.dropWhile_sublist pySpace).subset h
  rw [List.mem_reverse] at h2
  exact (List.dropWhile_sublist pySpace).subset h2

theorem head?_replaceDU : ∀ (l : List Char), (replaceDU l).head? = l.head? := by
  intro l
  induction l using replaceDU.induct with
  | case1 rest ih => rfl
  | case2 c rest hne ih => rw [replaceDU.eq_2 c rest hne]; rfl
  | case3 => rfl

theorem mem_replaceDU : ∀ {l : List Char} {c : Char}, c ∈ replaceDU l → c ∈ l := by
  intro l
  induction l using replaceDU.induct with
  | case1 rest ih =>
    intro c h
    rw [replaceDU.eq_1, List.mem_cons] at h
    rcases h with h | h
    · simp [h]
    · exact List.mem_cons_of_mem _ (List.mem_cons_of_mem _ (ih h))
  | case2 a rest hne ih =>
    intro c h
    rw [replaceDU.eq_2 a rest hne, List.mem_cons] at h
    rcases h with h | h
    · simp [h]
    · exact List.mem_cons_of_mem _ (ih h)
  | case3 => intro c h; simp [replaceDU] at h

theorem chain'_replaceDU {l : List Char} (h : List.Chain' wsRel l) :
    List.Chain' wsRel (replaceDU l) := by
  induction l using replaceDU.induct with
  | case1 rest ih =>
    rw [replaceDU.eq_1, List.chain'_cons']
    rw [List.chain'_cons'] at h
    have h2 := h.2
    rw [List.chain'_cons'] at h2
    refine ⟨?_, ih h2.2⟩
    intro y hy
    rw [head?_replaceDU] at hy
    exact h2.1 y hy
  | case2 a rest hne ih =>
    rw [replaceDU.eq_2 a rest hne, List.chain'_cons']
    rw [List.chain'_cons'] at h
    refine ⟨?_, ih h.2⟩
    intro y hy
    rw [head?_replaceDU] at hy
    exact h.1 y hy
  | case3 => simp [replaceDU]

theorem chain'_reverse_wsRel {l : List Char} (h : List.Chain' wsRel l) :
    List.Chain' wsRel l.reverse := by
  rw [List.chain'_reverse]
  exact h.imp (fun a b hab hc => hab ⟨hc.2, hc.1⟩)

theorem chain'_pyStrip {l : List Char} (h : List.Chain' wsRel l) :
    List.Chain' wsRel (pyStrip l) := by
  unfold pyStrip
  apply chain'_reverse_wsRel
  apply List.Chain'.suffix _ (List.dropWhile_suffix pySpace)
  apply chain'_reverse_wsRel
  exact List.Chain'.suffix h (List.dropWhile_suffix pySpace)

/-- Claim C9, amended: every output of `safe_part` is free of the
path-illegal characters the sanitizer targets (the nine Windows-reserved
characters plus tab, newline and carriage return), contains no run of two
adjacent whitespace characters, and is capped at the given maximum length.
(The original claim's stronger assertions — no control characters at all
and no `__` sequence — fail; see the counterexample.) -/
theorem safe_part_sanitizes (s : List Char) (m : Nat) :
    (∀ c ∈ safe_part s m, illegalChar c = false) ∧
    List.Chain' wsRel (safe_part s m) ∧
    (safe_part s m).length ≤ m := by
  refine ⟨?_, ?_, ?_⟩
  · intro c hc
    unfold safe_part at hc
    have h1 := mem_replaceDU (List.take_subset _ _ hc)
    have h2 := mem_pyStrip h1
    rcases mem_collapseAux h2 with h3 | ⟨h3, _⟩
    · subst h3; decide
    · rcases mem_collapseAux h3 with h5 | ⟨_, h5⟩
      · subst h5; decide
      · exact h5
  · unfold safe_part
    apply List.Chain'.prefix _ (List.take_prefix _ _)
    apply chain'_replaceDU
    apply chain'_pyStrip
    exact chain'_collapseWs false _
  · unfold safe_part
    exact List.length_take_le _ _

/-- Witness for `safe_part_sanitizes` at a concrete input. -/
theorem safe_part_sanitizes_witness :
    illegalChar ' ' = false ∧ (safe_part "a : b".toList 60).length ≤ 60 :=
  ⟨(safe_part_sanitizes "a : b".toList 60).1 ' ' (by decide),
   (safe_part_sanitizes "a : b".toList 60).2.2⟩

/-- Claim C9 counterexample: `safe_part` can output the double-underscore
delimiter sequence (input `"____"` yields `"__"`), and control characters
other than tab/newline/carriage return survive it (input `"\x07"` is
returned unchanged), refuting the claimed invariant at these inputs. -/
theorem safe_part_claim_false :
    hasDU (safe_part "____".toList 60) = true ∧
    '\x07' ∈ safe_part "\x07".toList 60 := by
  constructor
  · decide
  · decide

/-! ## Recency filter (claim C5) -/

/-- Claim C5: the recency filter never excludes a submission with no
parseable timestamp, and a submission whose latest timestamp equals the
cutoff exactly is kept — the boundary comparison is an inclusive `≥`
(the code skips only when `ts < since`). -/
theorem recency_inclusive (o : String → Option ℚ) (since : ℚ) (sub : JVal) :
    (find_any_timestamp o sub = none → recencyKeep o since sub = true) ∧
    (find_any_timestamp o sub = some since → recencyKeep o since sub = true) ∧
    (∀ ts : ℚ, find_any_timestamp o sub = some ts →
      (recencyKeep o since sub = true ↔ since ≤ ts)) := by
  refine ⟨?_, ?_, ?_⟩
  · intro h; simp [recencyKeep, h]
  · intro h; simp [recencyKeep, h]
  · intro ts h
    simp [recencyKeep, h, not_lt]

/-- Witness for `recency_inclusive`: a record with a single numeric
timestamp equal to the cutoff is kept, and a record with none is kept. -/
theorem recency_inclusive_witness :
    recencyKeep (fun _ => none) 5 (.obj [("time", .num 5)]) = true ∧
    recencyKeep (fun _ => none) 5 (.obj [("note", .str "x")]) = true := by
  constructor
  · exact (recency_inclusive (fun _ => none) 5 _).2.1 (by rfl)
  · exact (recency_inclusive (fun _ => none) 5 _).1 (by rfl)

/-! ## Upload retry and batch counters (claim C7) -/

theorem processBatch_counts {α : Type} (ts : List (FileTask α)) :
    ∀ c : Counters, processBatch ts c =
      ⟨c.uploaded + ts.countP isUploadedTask,
       c.skipped + ts.countP isSkippedTask,
       c.failed + ts.countP isFailedTask⟩ := by
  induction ts with
  | nil => intro c; simp [processBatch]
  | cons t rest ih =>
    intro c
    have hstep : processBatch (t :: rest) c = processBatch rest (processFile t c) := rfl
    rw [hstep, ih]
    rcases c with ⟨u, s, f⟩
    unfold processFile
    rcases hd : t.decoded with _ | g
    · simp only [List.countP_cons, isUploadedTask, isSkippedTask, isFailedTask, hd]
      simp
      omega
    · rcases hu : upload_file_to_wise t.handshake with _ | v
      · simp only [List.countP_cons, isUploadedTask, isSkippedTask, isFailedTask, hd, hu]
        simp
        omega
      · rcases hf : t.feedbackOk
        · simp only [List.countP_cons, isUploadedTask, isSkippedTask, isFailedTask, hd, hu, hf]
          simp
          omega
        · simp only [List.countP_cons, isUploadedTask, isSkippedTask, isFailedTask, hd, hu, hf]
          simp
          omega

/-- Claim C7: the three-step handshake is retried as a whole, at most
`MAX_RETRIES = 3` attempts are ever consulted, a handshake that fails twice
and succeeds on the third attempt yields an uploaded file, exhausting all
attempts yields a failed file, and the batch processes every file
independently — each file contributes exactly one counter tick, whatever
the other files did. -/
theorem upload_retry_batch {α : Type} (f g : Nat → Option α)
    (d : α) (ts : List (FileTask α)) (c : Counters) (gr : FileGroups) (fb : Bool) :
    (f 1 = none → f 2 = none → f 3 = some d → upload_file_to_wise f = some d) ∧
    (f 1 = none → f 2 = none → f 3 = some d →
      processFile ⟨some gr, f, true⟩ c = { c with uploaded := c.uploaded + 1 }) ∧
    (f 1 = none → f 2 = none → f 3 = none → upload_file_to_wise f = none) ∧
    (f 1 = none → f 2 = none → f 3 = none →
      processFile ⟨some gr, f, fb⟩ c = { c with failed := c.failed + 1 }) ∧
    (f 1 = g 1 → f 2 = g 2 → f 3 = g 3 →
      upload_file_to_wise f = upload_file_to_wise g) ∧
    processBatch ts c =
      ⟨c.uploaded + ts.countP isUploadedTask,
       c.skipped + ts.countP isSkippedTask,
       c.failed + ts.countP isFailedTask⟩ := by
  have hsucc : f 1 = none → f 2 = none → f 3 = some d →
      upload_file_to_wise f = some d := by
    intro h1 h2 h3
    simp [upload_file_to_wise, MAX_RETRIES, tryAttempts, h1, h2, h3]
  have hfail : f 1 = none → f 2 = none → f 3 = none →
      upload_file_to_wise f = none := by
    intro h1 h2 h3
    simp [upload_file_to_wise, MAX_RETRIES, tryAttempts, h1, h2, h3]
  refine ⟨hsucc, ?_, hfail, ?_, ?_, processBatch_counts ts c⟩
  · intro h1 h2 h3
    simp [processFile, hsucc h1 h2 h3]
  · intro h1 h2 h3
    simp [processFile, hfail h1 h2 h3]
  · intro h1 h2 h3
    simp [upload_file_to_wise, MAX_RETRIES, tryAttempts, h1, h2, h3]

/-- Witness for `upload_retry_batch`: an oracle failing on attempts 1 and 2
and succeeding on attempt 3 is recorded as uploaded. -/
theorem upload_retry_batch_witness :
    upload_file_to_wise (fun n => if n = 3 then some 0 else none) = some 0 ∧
    processFile ⟨some ⟨[], [], [], []⟩, fun n => if n = 3 then some 0 else none, true⟩
        ⟨0, 0, 0⟩ = ⟨1, 0, 0⟩ := by
  have h := upload_retry_batch (fun n => if n = 3 then some (0 : Nat) else none)
    (fun _ => none) 0 [] ⟨0, 0, 0⟩ ⟨[], [], [], []⟩ true
  exact ⟨h.1 rfl rfl rfl, h.2.1 rfl rfl rfl⟩

/-! ## Image scratch cleanup (claim C8) -/

theorem downloadImages_succ (dl : Nat → DlResult) (n : Nat) :
    downloadImages dl (n + 1) =
      (match dl n with
        | .ok => (⟨(downloadImages dl n).scratch ++ [n],
                   (downloadImages dl n).imagePaths ++ [n]⟩ : ScratchSt)
        | .failEarly => downloadImages dl n
        | .failLate => ⟨(downloadImages dl n).scratch ++ [n],
                        (downloadImages dl n).imagePaths⟩) := rfl

theorem downloadImages_spec (dl : Nat → DlResult) :
    ∀ n, (downloadImages dl n).scratch
          = (List.range n).filter (fun i => dl i != .failEarly) ∧
         (downloadImages dl n).imagePaths
          = (List.range n).filter (fun i => dl i == .ok) := by
  intro n
  induction n with
  | zero => exact ⟨rfl, rfl⟩
  | succ n ih =>
    rw [List.range_succ, List.filter_append, List.filter_append, ← ih.1, ← ih.2,
        downloadImages_succ]
    cases hdl : dl n <;> simp [hdl]

theorem foldl_erase_subset : ∀ (p s : List Nat), List.foldl List.erase s p ⊆ s := by
  intro p
  induction p with
  | nil => intro s; simp
  | cons a p ih =>
    intro s
    calc List.foldl List.erase (s.erase a) p ⊆ s.erase a := ih _
      _ ⊆ s := List.erase_subset a s

theorem foldl_erase_append (p : List Nat) :
    ∀ (s t : List Nat), (∀ x ∈ p, x ∉ t) →
      List.foldl List.erase (s ++ t) p = List.foldl List.erase s p ++ t := by
  induction p with
  | nil => intro s t _; simp
  | cons a p ih =>
    intro s t h
    simp only [List.foldl_cons]
    have ha : a ∉ t := h a (List.mem_cons_self _ _)
    have he : (s ++ t).erase a = s.erase a ++ t := by
      by_cases hs : a ∈ s
      · exact List.erase_append_left t hs
      · rw [List.erase_of_not_mem hs, List.erase_of_not_mem (by simp [hs, ha])]
    rw [he]
    exact ih _ _ (fun x hx => h x (List.mem_cons_of_mem _ hx))

theorem cleanup_eq_failLate (dl : Nat → DlResult) :
    ∀ n, List.foldl List.erase (downloadImages dl n).scratch
          (downloadImages dl n).imagePaths
        = (List.range n).filter (fun i => dl i == .failLate) := by
  intro n
  induction n with
  | zero => rfl
  | succ n ih =>
    have hspec := downloadImages_spec dl n
    have hb_s : ∀ x ∈ (downloadImages dl n).scratch, x < n := by
      intro x hx
      rw [hspec.1, List.mem_filter] at hx
      exact List.mem_range.1 hx.1
    have hb_p : ∀ x ∈ (downloadImages dl n).imagePaths, x < n := by
      intro x hx
      rw [hspec.2, List.mem_filter] at hx
      exact List.mem_range.1 hx.1
    rw [List.range_succ, List.filter_append, downloadImages_succ]
    cases hdl : dl n with
    | ok =>
      show List.foldl List.erase ((downloadImages dl n).scratch ++ [n])
            ((downloadImages dl n).imagePaths ++ [n]) = _
      rw [List.foldl_append,
          foldl_erase_append _ _ _ (fun x hx => by
            have := hb_p x hx
            simp only [List.mem_singleton]
            omega)]
      show (List.foldl List.erase (downloadImages dl n).scratch
              (downloadImages dl n).imagePaths ++ [n]).erase n = _
      rw [List.erase_append_right _ (fun hmem =>
        absurd (hb_s n (foldl_erase_subset _ _ hmem)) (by omega))]
      simp [ih, hdl]
    | failEarly =>
      show List.foldl List.erase (downloadImages dl n).scratch
            (downloadImages dl n).imagePaths = _
      rw [ih]
      simp [hdl]
    | failLate =>
      show List.foldl List.erase ((downloadImages dl n).scratch ++ [n])
            (downloadImages dl n).imagePaths = _
      rw [foldl_erase_append _ _ _ (fun x hx => by
        have := hb_p x hx
        simp only [List.mem_singleton]
        omega)]
      simp [ih, hdl]

/-- Claim C8, amended: after one submission's image-merge branch, the
scratch directory holds exactly the partial files of downloads that failed
mid-stream; in particular the cleanup outcome is independent of whether the
PDF conversion succeeded, and when no download fails after its file was
created (every outcome `ok` or `failEarly`) the scratch directory is left
empty. The original claim — every file placed in the scratch directory is
deleted regardless of download failures — is refuted by the counterexample
below, since the `finally` block only unlinks the paths recorded in
`image_paths`, which a failed download never reaches. -/
theorem scratch_cleanup_amended (dl : Nat → DlResult) (n : Nat) (c1 c2 : Bool) :
    scratchAfterCleanup dl n c1
      = (List.range n).filter (fun i => dl i == .failLate) ∧
    scratchAfterCleanup dl n c1 = scratchAfterCleanup dl n c2 ∧
    ((∀ i, i < n → dl i ≠ .failLate) → scratchAfterCleanup dl n c1 = []) := by
  have hmain : ∀ cb : Bool, scratchAfterCleanup dl n cb
      = (List.range n).filter (fun i => dl i == .failLate) :=
    fun _ => cleanup_eq_failLate dl n
  refine ⟨hmain c1, (hmain c1).trans (hmain c2).symm, ?_⟩
  intro h
  rw [hmain c1]
  apply List.eq_nil_iff_forall_not_mem.mpr
  intro x hx
  rw [List.mem_filter] at hx
  exact (h x (List.mem_range.1 hx.1)) (by simpa using hx.2)

/-- Witness for `scratch_cleanup_amended`: with two successful downloads
the scratch directory ends empty whatever the conversion did. -/
theorem scratch_cleanup_witness :
    scratchAfterCleanup (fun _ => DlResult.ok) 2 false = [] :=
  (scratch_cleanup_amended (fun _ => DlResult.ok) 2 false true).2.2
    (fun _ _ h => DlResult.noConfusion h)

/-- Claim C8 counterexample: a single image download that fails after its
output file was created leaves that file in the scratch directory after the
submission's cleanup, so not every file placed in the scratch area is
deleted. -/
theorem scratch_cleanup_claim_false :
    scratchAfterCleanup (fun _ => DlResult.failLate) 1 true = [0] ∧
    scratchAfterCleanup (fun _ => DlResult.failLate) 1 true ≠ [] := by
  constructor
  · rfl
  · decide

/-! ## Attachment dedup (claim C4) -/

theorem candFinish_track (kind url fname s3key keyname : String) :
    ((candFinish kind url fname s3key keyname).2.1 = true ↔
      (candFinish kind url fname s3key keyname).1.s3Key ≠ "") ∧
    ((candFinish kind url fname s3key keyname).2.1 = true →
      (candFinish kind url fname s3key keyname).2.2
        = (candFinish kind url fname s3key keyname).1.s3Key) := by
  unfold candFinish
  by_cases hk : s3key = "" <;> simp [hk]

theorem entryCandidate_track (e : JVal) (v : Attachment × Bool × String)
    (h : entryCandidate e = some v) :
    (v.2.1 = true ↔ v.1.s3Key ≠ "") ∧ (v.2.1 = true → v.2.2 = v.1.s3Key) := by
  unfold entryCandidate at h
  dsimp only at h
  repeat' split at h
  all_goals first
    | contradiction
    | (rw [Option.some_inj] at h; rw [← h]; exact candFinish_track _ _ _ _ _)
    | simp at h

theorem extractStep_pres (st : ExtSt) (e : JVal)
    (h1 : st.picked.Pairwise (fun a b => a.2 ≠ b.2))
    (h2 : ∀ x ∈ st.picked,
      (x.2.1 = true → x.2.2 ∈ st.seenKeys) ∧ (x.2.1 = false → x.2.2 ∈ st.seenNames))
    (h3 : ∀ x ∈ st.picked,
      (x.2.1 = true ↔ x.1.s3Key ≠ "") ∧ (x.2.1 = true → x.2.2 = x.1.s3Key)) :
    (extractStep st e).picked.Pairwise (fun a b => a.2 ≠ b.2) ∧
    (∀ x ∈ (extractStep st e).picked,
      (x.2.1 = true → x.2.2 ∈ (extractStep st e).seenKeys) ∧
      (x.2.1 = false → x.2.2 ∈ (extractStep st e).seenNames)) ∧
    (∀ x ∈ (extractStep st e).picked,
      (x.2.1 = true ↔ x.1.s3Key ≠ "") ∧ (x.2.1 = true → x.2.2 = x.1.s3Key)) := by
  unfold extractStep
  cases hc : entryCandidate e with
  | none => exact ⟨h1, h2, h3⟩
  | some v =>
    have htrack := entryCandidate_track e v hc
    rcases v with ⟨d, tr, k⟩
    cases tr with
    | true =>
      by_cases hk : k ∈ st.seenKeys
      · simp only [if_pos hk]
        exact ⟨h1, h2, h3⟩
      · simp only [if_neg hk]
        refine ⟨?_, ?_, ?_⟩
        · rw [List.pairwise_append]
          refine ⟨h1, by simp, ?_⟩
          intro a ha b hb
          simp only [List.mem_singleton] at hb
          subst hb
          intro heq
          have ha1 : a.2.1 = true := by rw [heq]
          have ha2 : a.2.2 = k := by rw [heq]
          exact hk (ha2 ▸ (h2 a ha).1 ha1)
        · intro x hx
          rcases List.mem_append.1 hx with hx | hx
          · exact ⟨fun ht => List.mem_append_left _ ((h2 x hx).1 ht),
                   fun hf => (h2 x hx).2 hf⟩
          · simp only [List.mem_singleton] at hx
            subst hx
            exact ⟨fun _ => List.mem_append_right _ (by simp),
                   fun hf => by simp at hf⟩
        · intro x hx
          rcases List.mem_append.1 hx with hx | hx
          · exact h3 x hx
          · simp only [List.mem_singleton] at hx
            subst hx
            exact htrack
    | false =>
      by_cases hk : k ∈ st.seenNames
      · simp only [if_pos hk]
        exact ⟨h1, h2, h3⟩
      · simp only [if_neg hk]
        refine ⟨?_, ?_, ?_⟩
        · rw [List.pairwise_append]
          refine ⟨h1, by simp, ?_⟩
          intro a ha b hb
          simp only [List.mem_singleton] at hb
          subst hb
          intro heq
          have ha1 : a.2.1 = false := by rw [heq]
          have ha2 : a.2.2 = k := by rw [heq]
          exact hk (ha2 ▸ (h2 a ha).2 ha1)
        · intro x hx
          rcases List.mem_append.1 hx with hx | hx
          · exact ⟨fun ht => (h2 x hx).1 ht,
                   fun hf => List.mem_append_left _ ((h2 x hx).2 hf)⟩
          · simp only [List.mem_singleton] at hx
            subst hx
            exact ⟨fun ht => by simp at ht,
                   fun _ => List.mem_append_right _ (by simp)⟩
        · intro x hx
          rcases List.mem_append.1 hx with hx | hx
          · exact h3 x hx
          · simp only [List.mem_singleton] at hx
            subst hx
            exact htrack

theorem extractFold_inv (entries : List JVal) :
    ∀ st : ExtSt,
      st.picked.Pairwise (fun a b => a.2 ≠ b.2) →
      (∀ x ∈ st.picked,
        (x.2.1 = true → x.2.2 ∈ st.seenKeys) ∧ (x.2.1 = false → x.2.2 ∈ st.seenNames)) →
      (∀ x ∈ st.picked,
        (x.2.1 = true ↔ x.1.s3Key ≠ "") ∧ (x.2.1 = true → x.2.2 = x.1.s3Key)) →
      (entries.foldl extractStep st).picked.Pairwise (fun a b => a.2 ≠ b.2) ∧
      (∀ x ∈ (entries.foldl extractStep st).picked,
        (x.2.1 = true ↔ x.1.s3Key ≠ "") ∧ (x.2.1 = true → x.2.2 = x.1.s3Key)) := by
  induction entries with
  | nil => intro st h1 _ h3; exact ⟨h1, h3⟩
  | cons e rest ih =>
    intro st h1 h2 h3
    simp only [List.foldl_cons]
    have hp := extractStep_pres st e h1 h2 h3
    exact ih _ hp.1 hp.2.1 hp.2.2

/-- Claim C4, amended: within one submission the Normalizer never retains
two descriptors that were admitted on the same dedup track with the same
dedup key — in particular no two retained descriptors with storage keys
share a storage key — and for two entries with identical storage keys the
first encountered wins, the second being dropped. The original claim's
cross-track assertion (no two retained descriptors ever share the
specification's `dedupe_key`) fails: a keyed entry and a keyless one may
collide, see the counterexample. -/
theorem attachment_dedup_amended (sub : List (String × JVal))
    (e1 e2 : JVal) (d1 d2 : Attachment) (k : String)
    (h1 : entryCandidate e1 = some (d1, true, k))
    (h2 : entryCandidate e2 = some (d2, true, k)) :
    (extract_attachments sub).Pairwise
      (fun a b => a.s3Key ≠ "" → b.s3Key ≠ "" → a.s3Key ≠ b.s3Key) ∧
    (extractRun (attachmentsOf sub)).picked.Pairwise (fun a b => a.2 ≠ b.2) ∧
    (extractRun [e1, e2]).picked.map (fun p => p.1) = [d1] := by
  have hinv := extractFold_inv (attachmentsOf sub) ⟨[], [], []⟩
    (by simp) (by simp) (by simp)
  refine ⟨?_, hinv.1, ?_⟩
  · unfold extract_attachments
    rw [List.pairwise_map]
    apply hinv.1.imp_of_mem
    intro a b ha hb hne hka hkb
    intro heq
    apply hne
    have hta := ((hinv.2 a ha).1.mpr hka)
    have htb := ((hinv.2 b hb).1.mpr hkb)
    have hva := (hinv.2 a ha).2 hta
    have hvb := (hinv.2 b hb).2 htb
    have : a.2.1 = b.2.1 := by rw [hta, htb]
    have h22 : a.2.2 = b.2.2 := by rw [hva, hvb, heq]
    exact Prod.ext this h22
  · show (extractStep (extractStep ⟨[], [], []⟩ e1) e2).picked.map (fun p => p.1) = [d1]
    have hs1 : extractStep ⟨[], [], []⟩ e1
        = ⟨[(d1, true, k)], [k], []⟩ := by
      unfold extractStep
      rw [h1]
      simp
    rw [hs1]
    unfold extractStep
    rw [h2]
    simp

/-- Witness for `attachment_dedup_amended`: two concrete entries with the
same storage key and different filenames keep only the first. -/
theorem attachment_dedup_witness :
    (extractRun [
      .obj [("s3Key", .str "k1"), ("path", .str "http://x/a.pdf"),
            ("filename", .str "f1.pdf")],
      .obj [("s3Key", .str "k1"), ("path", .str "http://x/b.pdf"),
            ("filename", .str "f2.pdf")]]).picked.map (fun p => p.1)
      = [⟨"pdf", "http://x/a.pdf", "f1.pdf", "k1"⟩] :=
  (attachment_dedup_amended []
    (.obj [("s3Key", .str "k1"), ("path", .str "http://x/a.pdf"),
           ("filename", .str "f1.pdf")])
    (.obj [("s3Key", .str "k1"), ("path", .str "http://x/b.pdf"),
           ("filename", .str "f2.pdf")])
    ⟨"pdf", "http://x/a.pdf", "f1.pdf", "k1"⟩
    ⟨"pdf", "http://x/b.pdf", "f2.pdf", "k1"⟩ "k1"
    (by decide) (by decide)).2.2

/-- Claim C4 counterexample: a keyed entry and a keyless entry can both be
retained while sharing the specification's descriptor-level `dedupe_key`
(the first entry's storage key equals the second entry's lowercased
filename), refuting "no two descriptors in the output share a dedupe_key". -/
theorem attachment_dedup_claim_false :
    extract_attachments [("attachments", .arr [
      .obj [("s3Key", .str "abc.pdf"), ("path", .str "http://x/a.pdf"),
            ("filename", .str "f1.pdf")],
      .obj [("path", .str "http://x/b.pdf"), ("filename", .str "ABC.pdf")]])]
      = [⟨"pdf", "http://x/a.pdf", "f1.pdf", "abc.pdf"⟩,
         ⟨"pdf", "http://x/b.pdf", "ABC.pdf", ""⟩] ∧
    specDedupeKey ⟨"pdf", "http://x/a.pdf", "f1.pdf", "abc.pdf"⟩
      = specDedupeKey ⟨"pdf", "http://x/b.pdf", "ABC.pdf", ""⟩ ∧
    (⟨"pdf", "http://x/a.pdf", "f1.pdf", "abc.pdf"⟩ : Attachment)
      ≠ ⟨"pdf", "http://x/b.pdf", "ABC.pdf", ""⟩ := by
  exact ⟨by decide, by decide, by decide⟩

/-! ## Codec matcher lemmas (claims C1, C2, C10) -/

theorem findSome?_range_first {α : Type} (f : Nat → Option α) (n b : Nat) (v : α)
    (hlt : n < b) (hf : f n = some v) (hnone : ∀ m, m < n → f m = none) :
    (List.range b).findSome? f = some v := by
  induction b with
  | zero => omega
  | succ b ih =>
    rw [List.range_succ, List.findSome?_append]
    rcases Nat.lt_or_ge n b with hb | hb
    · rw [ih hb]
      rfl
    · have hnb : n = b := by omega
      subst hnb
      have h1 : (List.range n).findSome? f = none := by
        rw [List.findSome?_eq_none_iff]
        intro m hm
        exact hnone m (List.mem_range.1 hm)
      rw [h1]
      simp [hf]

theorem take_append_left {α : Type} (x y : List α) {n : Nat} (h : n ≤ x.length) :
    (x ++ y).take n = x.take n := by
  rw [List.take_append_eq_append_take]
  have : n - x.length = 0 := by omega
  simp [this]

theorem drop_append_left {α : Type} (x y : List α) {n : Nat} (h : n ≤ x.length) :
    (x ++ y).drop n = x.drop n ++ y := by
  rw [List.drop_append_eq_append_drop]
  have : n - x.length = 0 := by omega
  simp [this]

theorem take2_eq_du_hasDU {m : List Char} (h : m.take 2 = du) : hasDU m = true := by
  match m with
  | [] => simp [du] at h
  | [c] => simp [du] at h
  | c1 :: c2 :: t =>
    simp only [List.take, du, List.cons.injEq] at h
    rw [h.1, h.2.1]
    rfl

theorem hasDU_cons {c : Char} {rest : List Char} (h : hasDU (c :: rest) = false) :
    hasDU rest = false := by
  by_cases hsh : ∃ t : List Char, c = '_' ∧ rest = '_' :: t
  · rcases hsh with ⟨t, hc, hr⟩
    subst hc hr
    rw [hasDU.eq_1] at h
    exact Bool.noConfusion h
  · rw [hasDU.eq_2 c rest (fun t hc hr => hsh ⟨t, hc, hr⟩)] at h
    exact h

theorem hasDU_drop {l : List Char} (h : hasDU l = false) :
    ∀ n, hasDU (l.drop n) = false := by
  induction l with
  | nil => intro n; simp [hasDU]
  | cons c rest ih =>
    intro n
    cases n with
    | zero => exact h
    | succ n => exact ih (hasDU_cons h) n

theorem drop_take2_ne_du {l : List Char} (h : hasDU l = false) (n : Nat) :
    (l.drop n).take 2 ≠ du := by
  intro hc
  have := take2_eq_du_hasDU hc
  rw [hasDU_drop h n] at this
  exact Bool.noConfusion this

theorem stripTrailingNl_eq_self {r : List Char} (h : r.head? ≠ some '\n') :
    stripTrailingNl r = r := by
  cases r with
  | nil => rfl
  | cons c rest =>
    simp only [stripTrailingNl]
    rw [if_neg]
    intro he
    exact h (by rw [List.head?_cons, he])

theorem stripTrailingNl_append {A : List Char} (B : List Char) (h : A ≠ []) :
    stripTrailingNl (A ++ B) = stripTrailingNl A ++ B := by
  cases A with
  | nil => exact absurd rfl h
  | cons c rest =>
    rw [List.cons_append]
    simp only [stripTrailingNl]
    by_cases hc : c = '\n'
    · rw [if_pos hc, if_pos hc]
    · rw [if_neg hc, if_neg hc, List.cons_append]

theorem tailOk_canonical (t : List Char) (w : Char) (M : List Char)
    (ht : t ≠ []) (htn : ∀ c ∈ t, c ≠ '\n') (hw : pySpace w = true)
    (hM : M.length = 10) (hMlow : M.map Char.toLower = "marked.pdf".toList) :
    tailOk (t ++ w :: M) = true := by
  have hrev : (t ++ w :: M).reverse = M.reverse ++ ([w] ++ t.reverse) := by
    rw [List.reverse_append, List.reverse_cons, List.append_assoc]
  have htk : (t ++ w :: M).reverse.take 10 = M.reverse := by
    rw [hrev, take_append_left _ _ (by rw [List.length_reverse, hM]),
        List.take_of_length_le (by rw [List.length_reverse, hM])]
  have hdr : (t ++ w :: M).reverse.drop 10 = w :: t.reverse := by
    rw [hrev, List.drop_left' (by rw [List.length_reverse, hM])]
    rfl
  have hmap : M.reverse.map Char.toLower = "fdp.dekram".toList := by
    rw [List.map_reverse, hMlow]
    decide
  have hstrip : stripTrailingNl ((t ++ w :: M).reverse) = (t ++ w :: M).reverse := by
    apply stripTrailingNl_eq_self
    rw [hrev]
    cases hMr : M.reverse with
    | nil => rw [hMr] at hmap; exact absurd hmap (by decide)
    | cons x xs =>
      rw [hMr] at hmap
      rw [List.cons_append, List.head?_cons]
      intro he
      injection he with he
      rw [List.map_cons] at hmap
      have h0 := congrArg List.head? hmap
      rw [List.head?_cons,
          (by decide : ("fdp.dekram".toList).head? = some 'f')] at h0
      injection h0 with h0
      rw [he] at h0
      exact absurd h0 (by decide)
  unfold tailOk
  dsimp only
  rw [hstrip, htk, hdr]
  rw [hmap]
  simp only [decide_eq_true_eq, Bool.and_eq_true, decide_True]
  refine ⟨trivial, ?_⟩
  simp only [hw, Bool.true_and, Bool.and_eq_true, Bool.not_eq_true',
    List.isEmpty_eq_false, List.all_eq_true]
  refine ⟨by simpa using ht, ?_⟩
  intro c hc
  rw [List.mem_reverse] at hc
  simpa using htn c hc

theorem hex24Delim_canonical (a r : List Char) (h24 : a.length = 24)
    (hhex : a.all hexDigit = true) :
    hex24Delim (a ++ du ++ r) = some (a, r) := by
  have h1 : (a ++ du ++ r).take 24 = a := by
    rw [List.append_assoc, List.take_left' h24]
  have h2 : (a ++ du ++ r).drop 24 = du ++ r := by
    rw [List.append_assoc, List.drop_left' h24]
  have h3 : (a ++ du ++ r).drop 26 = r := by
    rw [List.drop_left' (by simp [du, h24])]
  unfold hex24Delim
  rw [if_pos ⟨by rw [h1, h24], by rw [h1]; exact hhex, by rw [h2]; rfl⟩, h1, h3]

theorem hex24Delim_underscore (r : List Char) : hex24Delim ('_' :: r) = none := by
  unfold hex24Delim
  rw [if_neg]
  rintro ⟨-, h2, -⟩
  have h3 : hexDigit '_' = true :=
    List.all_eq_true.1 h2 '_' (by simp [List.take_cons])
  exact absurd h3 (by decide)

theorem split_head_fail (x rest2 : List Char) (hx : hasDU x = false)
    (n : Nat) (hn : n < x.length) :
    ((x ++ du ++ rest2).drop n).take 2 ≠ du ∨
    hex24Delim ((x ++ du ++ rest2).drop (n + 2)) = none := by
  rcases Nat.lt_or_ge n (x.length - 1) with h2 | h2
  · left
    have hv : x ++ du ++ rest2 = x ++ (du ++ rest2) := by
      simp [List.append_assoc]
    rw [hv, drop_append_left _ _ (by omega)]
    rw [take_append_left _ _ (by simp; omega)]
    exact drop_take2_ne_du hx n
  · right
    have hn1 : n = x.length - 1 := by omega
    have hv : x ++ du ++ rest2 = (x ++ ['_']) ++ ('_' :: rest2) := by
      simp [du, List.append_assoc]
    rw [hv]
    have hlen : (x ++ ['_']).length = n + 2 := by simp; omega
    rw [List.drop_left' hlen]
    exact hex24Delim_underscore _

theorem trySplitStudent_fail (l : List Char) (n : Nat)
    (h : (l.drop n).take 2 ≠ du ∨ hex24Delim (l.drop (n + 2)) = none) :
    trySplitStudent l n = none := by
  unfold trySplitStudent
  rcases h with h | h
  · rw [if_neg (fun hc => h hc.2)]
  · by_cases hc : ((l.take n).all (fun c => c != '\n') = true ∧ (l.drop n).take 2 = du)
    · rw [if_pos hc, h]
    · rw [if_neg hc]

theorem trySplitClass_fail (l : List Char) (n : Nat)
    (h : (l.drop n).take 2 ≠ du ∨ hex24Delim (l.drop (n + 2)) = none) :
    trySplitClass l n = none := by
  unfold trySplitClass
  rcases h with h | h
  · rw [if_neg (fun hc => h hc.2)]
  · by_cases hc : ((l.take n).all (fun c => c != '\n') = true ∧ (l.drop n).take 2 = du)
    · rw [if_pos hc, h]
    · rw [if_neg hc]

theorem studentScan_canonical (s i tail : List Char)
    (hs : s ≠ []) (hsDU : hasDU s = false) (hsn : ∀ c ∈ s, c ≠ '\n')
    (hi24 : i.length = 24) (hihex : i.all hexDigit = true)
    (htail : tailOk tail = true) :
    studentScan (s ++ du ++ i ++ du ++ tail) = some (s, i) := by
  have hview : s ++ du ++ i ++ du ++ tail = (s ++ du) ++ (i ++ du ++ tail) := by
    simp [List.append_assoc]
  have hviewR : s ++ du ++ i ++ du ++ tail = s ++ (du ++ (i ++ du ++ tail)) := by
    simp [List.append_assoc]
  have hlen : (s ++ du ++ i ++ du ++ tail).length
      = s.length + 28 + tail.length := by
    simp [du, hi24]
    omega
  have hsucc : trySplitStudent (s ++ du ++ i ++ du ++ tail) s.length = some (s, i) := by
    unfold trySplitStudent
    have h1 : (s ++ du ++ i ++ du ++ tail).take s.length = s := by
      rw [hviewR, List.take_left' rfl]
    have h2 : ((s ++ du ++ i ++ du ++ tail).drop s.length).take 2 = du := by
      rw [hviewR, List.drop_left' rfl, take_append_left _ _ (by simp [du])]
      simp [du]
    have h3 : (s ++ du ++ i ++ du ++ tail).drop (s.length + 2) = i ++ du ++ tail := by
      rw [hview, List.drop_left' (by simp [du])]
    rw [if_pos ⟨by rw [h1]; exact List.all_eq_true.2 (fun c hc => by simpa using hsn c hc), h2⟩]
    rw [h3, hex24Delim_canonical i tail hi24 hihex]
    dsimp only
    rw [htail, if_pos rfl, h1]
  apply findSome?_range_first _ (s.length - 1) _ (s, i)
  · have hsl : 1 ≤ s.length := List.length_pos.2 hs
    rw [hlen]
    omega
  · have hsl : 1 ≤ s.length := List.length_pos.2 hs
    rw [show s.length - 1 + 1 = s.length from by omega]
    exact hsucc
  · intro m hm
    apply trySplitStudent_fail
    rw [hview]
    exact split_head_fail s (i ++ du ++ tail) hsDU (m + 1) (by omega)

theorem filenameMatch_canonical (c a s i t : List Char) (w : Char) (M : List Char)
    (hc : c ≠ []) (hcDU : hasDU c = false) (hcn : ∀ x ∈ c, x ≠ '\n')
    (ha24 : a.length = 24) (hahex : a.all hexDigit = true)
    (hs : s ≠ []) (hsDU : hasDU s = false) (hsn : ∀ x ∈ s, x ≠ '\n')
    (hi24 : i.length = 24) (hihex : i.all hexDigit = true)
    (ht : t ≠ []) (htn : ∀ x ∈ t, x ≠ '\n') (hw : pySpace w = true)
    (hM : M.length = 10) (hMlow : M.map Char.toLower = "marked.pdf".toList) :
    filenameMatch (c ++ du ++ a ++ du ++ s ++ du ++ i ++ du ++ (t ++ w :: M))
      = some ⟨c, a, s, i⟩ := by
  have htail : tailOk (t ++ w :: M) = true := tailOk_canonical t w M ht htn hw hM hMlow
  have hscan : studentScan (s ++ du ++ i ++ du ++ (t ++ w :: M)) = some (s, i) :=
    studentScan_canonical s i (t ++ w :: M) hs hsDU hsn hi24 hihex htail
  have hview : c ++ du ++ a ++ du ++ s ++ du ++ i ++ du ++ (t ++ w :: M)
      = (c ++ du) ++ (a ++ du ++ (s ++ du ++ i ++ du ++ (t ++ w :: M))) := by
    simp [List.append_assoc]
  have hviewR : c ++ du ++ a ++ du ++ s ++ du ++ i ++ du ++ (t ++ w :: M)
      = c ++ (du ++ (a ++ du ++ (s ++ du ++ i ++ du ++ (t ++ w :: M)))) := by
    simp [List.append_assoc]
  have hlen : (c ++ du ++ a ++ du ++ s ++ du ++ i ++ du ++ (t ++ w :: M)).length
      = c.length + 28 + s.length + 28 + t.length + 1 + M.length := by
    simp only [List.length_append, List.length_cons, du, List.length_cons,
      List.length_nil, ha24, hi24]
    omega
  have hsucc : trySplitClass
      (c ++ du ++ a ++ du ++ s ++ du ++ i ++ du ++ (t ++ w :: M)) c.length
      = some ⟨c, a, s, i⟩ := by
    unfold trySplitClass
    have h1 : (c ++ du ++ a ++ du ++ s ++ du ++ i ++ du ++ (t ++ w :: M)).take c.length
        = c := by
      rw [hviewR, List.take_left' rfl]
    have h2 : ((c ++ du ++ a ++ du ++ s ++ du ++ i ++ du ++ (t ++ w :: M)).drop
        c.length).take 2 = du := by
      rw [hviewR, List.drop_left' rfl, take_append_left _ _ (by simp [du])]
      simp [du]
    have h3 : (c ++ du ++ a ++ du ++ s ++ du ++ i ++ du ++ (t ++ w :: M)).drop
        (c.length + 2) = a ++ du ++ (s ++ du ++ i ++ du ++ (t ++ w :: M)) := by
      rw [hview, List.drop_left' (by simp [du])]
    rw [if_pos ⟨by rw [h1]; exact List.all_eq_true.2 (fun x hx => by simpa using hcn x hx), h2⟩]
    rw [h3, hex24Delim_canonical a _ ha24 hahex]
    dsimp only
    rw [hscan, h1]
  unfold filenameMatch
  apply findSome?_range_first _ (c.length - 1) _ (FileGroups.mk c a s i)
  · have hcl : 1 ≤ c.length := List.length_pos.2 hc
    rw [hlen]
    omega
  · have hcl : 1 ≤ c.length := List.length_pos.2 hc
    rw [show c.length - 1 + 1 = c.length from by omega]
    exact hsucc
  · intro m hm
    apply trySplitClass_fail
    rw [hview]
    exact split_head_fail c _ hcDU (m + 1) (by omega)

theorem collapseWs_id_aux : ∀ (l : List Char), List.Chain' wsRel l →
    (∀ c ∈ l, pySpace c = true → c = ' ') →
    collapseAux pySpace ' ' false l = l ∧
    ((∀ h ∈ l.head?, pySpace h = false) → collapseAux pySpace ' ' true l = l) := by
  intro l
  induction l with
  | nil => exact fun _ _ => ⟨rfl, fun _ => rfl⟩
  | cons a rest ih =>
    intro h1 h2
    rw [List.chain'_cons'] at h1
    obtain ⟨hrel, hchain⟩ := h1
    have ihr := ih hchain (fun c hc => h2 c (List.mem_cons_of_mem _ hc))
    by_cases hp : pySpace a
    · have ha : a = ' ' := h2 a (List.mem_cons_self _ _) hp
      constructor
      · have he : collapseAux pySpace ' ' false (a :: rest)
            = ' ' :: collapseAux pySpace ' ' true rest := by simp [collapseAux, hp]
        rw [he, ha]
        congr 1
        apply ihr.2
        intro h hh
        have hr := hrel h hh
        unfold wsRel at hr
        by_contra hcon
        rw [Bool.not_eq_false] at hcon
        exact hr ⟨hp, hcon⟩
      · intro hhead
        have := hhead a (by simp)
        rw [hp] at this
        exact Bool.noConfusion this
    · have he : ∀ b, collapseAux pySpace ' ' b (a :: rest)
          = a :: collapseAux pySpace ' ' false rest := by
        intro b; cases b <;> simp [collapseAux, hp]
      constructor
      · rw [he false, ihr.1]
      · intro _; rw [he true, ihr.1]

theorem pyStrip_id {l : List Char} (hh : ∀ c ∈ l.head?, pySpace c = false)
    (hl : ∀ c ∈ l.getLast?, pySpace c = false) : pyStrip l = l := by
  have h1 : l.dropWhile pySpace = l := by
    cases l with
    | nil => rfl
    | cons a rest =>
      rw [List.dropWhile_cons, if_neg (by rw [hh a (by simp)]; exact Bool.noConfusion)]
  unfold pyStrip
  rw [h1]
  have h2 : l.reverse.dropWhile pySpace = l.reverse := by
    cases hr : l.reverse with
    | nil => rfl
    | cons b rest2 =>
      rw [List.dropWhile_cons]
      have hb : b ∈ l.getLast? := by
        rw [← List.head?_reverse, hr]
        rfl
      rw [if_neg (by rw [hl b hb]; exact Bool.noConfusion)]
  rw [h2, List.reverse_reverse]

theorem chain'_of_no_ws {l : List Char} (h : ∀ x ∈ l, pySpace x = false) :
    List.Chain' wsRel l := by
  induction l with
  | nil => simp
  | cons a rest ih =>
    rw [List.chain'_cons']
    refine ⟨?_, ih (fun x hx => h x (List.mem_cons_of_mem _ hx))⟩
    intro y _ hc
    rw [h a (List.mem_cons_self _ _)] at hc
    exact Bool.noConfusion hc.1

theorem hex_not_ws {ch : Char} (h : hexDigit ch = true) : pySpace ch = false := by
  by_contra hcon
  rw [Bool.not_eq_false] at hcon
  have h6 : ((((ch = ' ' ∨ ch = '\t') ∨ ch = '\n') ∨ ch = '\x0b') ∨ ch = '\x0c') ∨ ch = '\r' := by
    simpa [pySpace] using hcon
  rcases h6 with ((((h6 | h6) | h6) | h6) | h6) | h6 <;> (subst h6; exact absurd h (by decide))

theorem pdfEnds_append_du (x o : List Char) : pdfEnds (x ++ du ++ o) = pdfEnds o := by
  unfold pdfEnds
  have h : (List.map Char.toLower (x ++ du ++ o)).reverse
      = (List.map Char.toLower o).reverse
        ++ ('_' :: '_' :: (List.map Char.toLower x).reverse) := by
    simp only [List.map_append, List.reverse_append, du]
    simp [Char.toLower]
  rw [h]
  generalize (List.map Char.toLower o).reverse = r
  rcases r with _ | ⟨a, _ | ⟨b, _ | ⟨c, _ | ⟨d, r⟩⟩⟩⟩ <;>
    simp [List.take_cons, beq_iff_eq]

theorem head?_append_left {α : Type} {l : List α} (y : List α) (h : l ≠ []) :
    (l ++ y).head? = l.head? := by
  cases l with
  | nil => exact absurd rfl h
  | cons a rest => rfl

theorem getLast?_append_right {α : Type} (l : List α) {y : List α} (h : y ≠ []) :
    (l ++ y).getLast? = y.getLast? := by
  rw [← List.head?_reverse, ← List.head?_reverse, List.reverse_append]
  exact head?_append_left _ (by simpa using h)

theorem chain'_append_safe {X Y : List Char} (hX : List.Chain' wsRel X)
    (hY : List.Chain' wsRel Y) (hYh : ∀ h ∈ Y.head?, pySpace h = false) :
    List.Chain' wsRel (X ++ Y) := by
  rw [List.chain'_append]
  refine ⟨hX, hY, ?_⟩
  intro x _ y hy hc
  rw [hYh y hy] at hc
  exact Bool.noConfusion hc.2

theorem chain'_append_safeL {X Y : List Char} (hX : List.Chain' wsRel X)
    (hY : List.Chain' wsRel Y) (hXl : ∀ c ∈ X.getLast?, pySpace c = false) :
    List.Chain' wsRel (X ++ Y) := by
  rw [List.chain'_append]
  refine ⟨hX, hY, ?_⟩
  intro x hx y _ hc
  rw [hXl x hx] at hc
  exact Bool.noConfusion hc.1

theorem pdfEnds_length {o : List Char} (h : pdfEnds o = true) : 4 ≤ o.length := by
  unfold pdfEnds at h
  rw [beq_iff_eq] at h
  have := congrArg List.length h
  simp only [List.length_take, List.length_reverse, List.length_map,
    List.length_cons, List.length_nil] at this
  omega

theorem pdfEnds_lower_drop {o : List Char} (h : pdfEnds o = true) :
    (o.drop (o.length - 4)).map Char.toLower = ['.', 'p', 'd', 'f'] := by
  unfold pdfEnds at h
  rw [beq_iff_eq, List.take_reverse] at h
  have h2 := congrArg List.reverse h
  rw [List.reverse_reverse] at h2
  rw [List.map_drop]
  rw [List.length_map] at h2
  rw [h2]
  rfl

theorem addMarked_split (x e : List Char) (he : e.length = 4) :
    addMarked (x ++ e) = x ++ ([' ', 'M', 'a', 'r', 'k', 'e', 'd'] ++ e) := by
  unfold addMarked
  have hl : (x ++ e).length - 4 = x.length := by simp [he]
  rw [hl, List.take_left, List.drop_left, List.append_assoc]

theorem prefix_fixed (cls stu a i : List Char)
    (hcls : labelOk cls) (hclsh : ∀ h ∈ cls.head?, pySpace h = false)
    (hstu : labelOk stu)
    (ha24 : a.length = 24) (hahex : a.all hexDigit = true)
    (hi24 : i.length = 24) (hihex : i.all hexDigit = true) :
    pyStrip (collapseRuns pySpace ' ' (cls ++ du ++ a ++ du ++ stu ++ du ++ i))
      = cls ++ du ++ a ++ du ++ stu ++ du ++ i := by
  have ha_ne : a ≠ [] := by intro hcon; rw [hcon] at ha24; simp at ha24
  have hi_ne : i ≠ [] := by intro hcon; rw [hcon] at hi24; simp at hi24
  have ha_nws : ∀ x ∈ a, pySpace x = false :=
    fun x hx => hex_not_ws (List.all_eq_true.1 hahex x hx)
  have hi_nws : ∀ x ∈ i, pySpace x = false :=
    fun x hx => hex_not_ws (List.all_eq_true.1 hihex x hx)
  have hdu_nws : ∀ x ∈ du, pySpace x = false := by
    intro x hx
    rcases (by simpa [du] using hx : x = '_' ∨ x = '_') with h | h <;>
      (subst h; decide)
  have hchain : List.Chain' wsRel (cls ++ du ++ a ++ du ++ stu ++ du ++ i) := by
    have hassoc : cls ++ du ++ a ++ du ++ stu ++ du ++ i
        = cls ++ (du ++ (a ++ (du ++ (stu ++ (du ++ i))))) := by
      simp [List.append_assoc]
    rw [hassoc]
    have chainDu : List.Chain' wsRel du := by
      unfold du
      rw [List.chain'_cons']
      exact ⟨fun y hy => by simp at hy; subst hy; exact fun hc => by simp [pySpace] at hc, by simp⟩
    have c6 := chain'_append_safe chainDu (chain'_of_no_ws hi_nws)
      (fun h hh => hi_nws h (List.mem_of_mem_head? hh))
    have c5 := chain'_append_safe hstu.2.2.1 c6 (by
      intro h hh
      rw [head?_append_left _ (by simp [du] : du ≠ [])] at hh
      simp [du] at hh
      subst hh
      decide)
    have c4 := chain'_append_safeL chainDu c5 (by
      intro x hx
      simp [du] at hx
      subst hx
      decide)
    have c3 := chain'_append_safe (chain'_of_no_ws ha_nws) c4 (by
      intro h hh
      rw [head?_append_left _ (by simp [du] : du ≠ [])] at hh
      simp [du] at hh
      subst hh
      decide)
    have c2 := chain'_append_safe chainDu c3 (by
      intro h hh
      rw [head?_append_left _ ha_ne] at hh
      exact ha_nws h (List.mem_of_mem_head? hh))
    exact chain'_append_safe hcls.2.2.1 c2 (by
      intro h hh
      rw [head?_append_left _ (by simp [du] : du ≠ [])] at hh
      simp [du] at hh
      subst hh
      decide)
  have hwsp : ∀ c ∈ cls ++ du ++ a ++ du ++ stu ++ du ++ i,
      pySpace c = true → c = ' ' := by
    intro c hc hws
    simp only [List.mem_append] at hc
    rcases hc with ((((((hc | hc) | hc) | hc) | hc) | hc) | hc)
    · exact hcls.2.2.2 c hc hws
    · rw [hdu_nws c hc] at hws; exact Bool.noConfusion hws
    · rw [ha_nws c hc] at hws; exact Bool.noConfusion hws
    · rw [hdu_nws c hc] at hws; exact Bool.noConfusion hws
    · exact hstu.2.2.2 c hc hws
    · rw [hdu_nws c hc] at hws; exact Bool.noConfusion hws
    · rw [hi_nws c hc] at hws; exact Bool.noConfusion hws
  unfold collapseRuns
  rw [(collapseWs_id_aux _ hchain hwsp).1]
  apply pyStrip_id
  · intro c hc
    have hassoc : cls ++ du ++ a ++ du ++ stu ++ du ++ i
        = cls ++ (du ++ (a ++ (du ++ (stu ++ (du ++ i))))) := by
      simp [List.append_assoc]
    rw [hassoc, head?_append_left _ hcls.1] at hc
    exact hclsh c hc
  · intro c hc
    rw [getLast?_append_right _ hi_ne] at hc
    exact hi_nws c (List.mem_of_mem_getLast? hc)

theorem labelOk_no_newline {l : List Char} (h : labelOk l) : ∀ x ∈ l, x ≠ '\n' := by
  intro x hx hcon
  subst hcon
  have := h.2.2.2 '\n' hx (by decide)
  exact absurd this (by decide)

theorem chain'_wsRel_of_noWsRun : ∀ {l : List Char}, noWsRun l = true →
    List.Chain' wsRel l
  | [], _ => by simp
  | [a], _ => by simp
  | a :: b :: rest, h => by
    rw [show noWsRun (a :: b :: rest)
        = ((!(pySpace a && pySpace b)) && noWsRun (b :: rest)) from rfl,
      Bool.and_eq_true] at h
    rw [List.chain'_cons]
    refine ⟨?_, chain'_wsRel_of_noWsRun h.2⟩
    intro hc
    rw [hc.1, hc.2] at h
    simp at h

theorem labelOk_of_checks {l : List Char} (h1 : l ≠ []) (h2 : hasDU l = false)
    (h3 : noWsRun l = true)
    (h4 : l.all (fun c => !(pySpace c) || (c == ' ')) = true) : labelOk l := by
  refine ⟨h1, h2, chain'_wsRel_of_noWsRun h3, ?_⟩
  intro c hc hws
  have := List.all_eq_true.1 h4 c hc
  rw [hws] at this
  simpa using this

/-- Claim C1, amended: for every tuple of a sanitized class label and a
sanitized student label that are non-empty, contain no double-underscore
sequence, no whitespace runs and only plain spaces as whitespace (with the
class label not starting with whitespace), a 24-hex assessment id used as
the assessment label, a 24-hex student id, and a sanitized non-empty
original-filename suffix (with a non-empty stem), encoding them into the
download filename and inserting a space and `Marked` before the final
`.pdf` yields a name `FILENAME_RE` matches, recovering all four groups —
in particular the assessment id and student id — exactly. The original
claim, quantified over all sanitized labels, is false: a sanitized class
label may contain `__` followed by 24 hex characters, which derails the
lazy match (see the counterexample). -/
theorem codec_roundtrip_amended (cls stu orig a i : List Char)
    (hcls : labelOk cls) (hclsh : ∀ h ∈ cls.head?, pySpace h = false)
    (hstu : labelOk stu)
    (ha24 : a.length = 24) (hahex : a.all hexDigit = true)
    (hi24 : i.length = 24) (hihex : i.all hexDigit = true)
    (horig : origStem orig ≠ []) (horign : ∀ x ∈ orig, x ≠ '\n') :
    filenameMatch (addMarked (encodeName cls a stu i orig))
      = some ⟨cls, a, stu, i⟩ := by
  have hpref := prefix_fixed cls stu a i hcls hclsh hstu ha24 hahex hi24 hihex
  unfold encodeName
  dsimp only
  rw [hpref, pdfEnds_append_du]
  by_cases hpdf : pdfEnds orig = true
  · rw [if_pos hpdf]
    have hlen4 := pdfEnds_length hpdf
    have horigsplit : orig
        = orig.take (orig.length - 4) ++ orig.drop (orig.length - 4) :=
      (List.take_append_drop _ _).symm
    have hext4 : (orig.drop (orig.length - 4)).length = 4 := by
      simp
      omega
    have hsplit : cls ++ du ++ a ++ du ++ stu ++ du ++ i ++ du ++ orig
        = (cls ++ du ++ a ++ du ++ stu ++ du ++ i ++ du ++ orig.take (orig.length - 4))
          ++ orig.drop (orig.length - 4) := by
      conv_lhs => rw [horigsplit]
      rw [← List.append_assoc]
    rw [hsplit, addMarked_split _ _ hext4]
    have hcanon :
        (cls ++ du ++ a ++ du ++ stu ++ du ++ i ++ du ++ orig.take (orig.length - 4))
          ++ ([' ', 'M', 'a', 'r', 'k', 'e', 'd'] ++ orig.drop (orig.length - 4))
        = cls ++ du ++ a ++ du ++ stu ++ du ++ i ++ du
          ++ (orig.take (orig.length - 4)
              ++ ' ' :: ("Marked".toList ++ orig.drop (orig.length - 4))) := by
      simp [List.append_assoc]
    rw [hcanon]
    apply filenameMatch_canonical
    · exact hcls.1
    · exact hcls.2.1
    · exact labelOk_no_newline hcls
    · exact ha24
    · exact hahex
    · exact hstu.1
    · exact hstu.2.1
    · exact labelOk_no_newline hstu
    · exact hi24
    · exact hihex
    · unfold origStem at horig
      rw [if_pos hpdf] at horig
      exact horig
    · exact fun x hx => horign x (List.take_subset _ _ hx)
    · decide
    · simp [hext4]
    · rw [List.map_append, pdfEnds_lower_drop hpdf]
      decide
  · rw [if_neg hpdf]
    have hsplit : cls ++ du ++ a ++ du ++ stu ++ du ++ i ++ du ++ orig
          ++ ['.', 'p', 'd', 'f']
        = (cls ++ du ++ a ++ du ++ stu ++ du ++ i ++ du ++ orig)
          ++ ['.', 'p', 'd', 'f'] := rfl
    rw [hsplit, addMarked_split _ _ (by rfl)]
    have hcanon :
        (cls ++ du ++ a ++ du ++ stu ++ du ++ i ++ du ++ orig)
          ++ ([' ', 'M', 'a', 'r', 'k', 'e', 'd'] ++ ['.', 'p', 'd', 'f'])
        = cls ++ du ++ a ++ du ++ stu ++ du ++ i ++ du
          ++ (orig ++ ' ' :: "Marked.pdf".toList) := by
      simp [List.append_assoc]
    rw [hcanon]
    apply filenameMatch_canonical
    · exact hcls.1
    · exact hcls.2.1
    · exact labelOk_no_newline hcls
    · exact ha24
    · exact hahex
    · exact hstu.1
    · exact hstu.2.1
    · exact labelOk_no_newline hstu
    · exact hi24
    · exact hihex
    · unfold origStem at horig
      rw [if_neg hpdf] at horig
      exact horig
    · exact horign
    · decide
    · decide
    · decide

theorem hex24Delim_some {l : List Char} {p : List Char × List Char}
    (h : hex24Delim l = some p) :
    p.1.length = 24 ∧ p.1.all hexDigit = true ∧ p.2 = l.drop 26 := by
  unfold hex24Delim at h
  split at h
  case isTrue hc =>
    rw [Option.some_inj] at h
    subst h
    exact ⟨hc.1, hc.2.1, rfl⟩
  case isFalse => exact absurd h (by simp)

theorem wsMarkedEndNl_of_tailOk_drop {l : List Char} {n : Nat}
    (h : tailOk (l.drop n) = true) : wsMarkedEndNl l = true := by
  unfold tailOk at h
  dsimp only at h
  rw [Bool.and_eq_true] at h
  obtain ⟨h1, h2⟩ := h
  rw [decide_eq_true_eq] at h1
  cases hd : (stripTrailingNl (l.drop n).reverse).drop 10 with
  | nil => rw [hd] at h2; exact Bool.noConfusion h2
  | cons w rest =>
    rw [hd, Bool.and_eq_true, Bool.and_eq_true] at h2
    have hlen : 10 ≤ (stripTrailingNl (l.drop n).reverse).length := by
      by_contra hcon
      push_neg at hcon
      have : (stripTrailingNl (l.drop n).reverse).drop 10 = [] :=
        List.drop_eq_nil_of_le (by omega)
      rw [this] at hd
      exact List.noConfusion hd
    have hne : (l.drop n).reverse ≠ [] := by
      intro he
      rw [he] at hd
      simp [stripTrailingNl] at hd
    have hrev : l.reverse = (l.drop n).reverse ++ (l.take n).reverse := by
      rw [← List.reverse_append, List.take_append_drop]
    unfold wsMarkedEndNl
    dsimp only
    rw [hrev, stripTrailingNl_append _ hne,
        take_append_left _ _ hlen, h1,
        drop_append_left _ _ hlen, hd]
    simp [h2.1.1]

theorem wsMarkedEndNl_eq_wsMarkedEnd {l : List Char}
    (h : l.getLast? ≠ some '\n') : wsMarkedEndNl l = wsMarkedEnd l := by
  unfold wsMarkedEndNl wsMarkedEnd
  rw [stripTrailingNl_eq_self]
  rw [List.head?_reverse]
  exact h
  
theorem filenameMatch_some (name : List Char) (g : FileGroups)
    (h : filenameMatch name = some g) :
    wsMarkedEndNl name = true ∧
    g.assessment.length = 24 ∧ g.assessment.all hexDigit = true ∧
    g.studentId.length = 24 ∧ g.studentId.all hexDigit = true := by
  unfold filenameMatch at h
  obtain ⟨k, _, hf⟩ := List.exists_of_findSome?_eq_some h
  unfold trySplitClass at hf
  split at hf
  case isFalse => exact absurd hf (by simp)
  case isTrue hcond =>
    cases hh : hex24Delim (name.drop (k + 1 + 2)) with
    | none => rw [hh] at hf; exact absurd hf (by simp)
    | some p =>
      rw [hh] at hf
      rcases p with ⟨aGrp, rest⟩
      dsimp only at hf
      have hhp := hex24Delim_some hh
      dsimp only at hhp
      cases hsc : studentScan rest with
      | none => rw [hsc] at hf; exact absurd hf (by simp)
      | some q =>
        rw [hsc] at hf
        rcases q with ⟨sGrp, iGrp⟩
        dsimp only at hf
        rw [Option.some_inj] at hf
        subst hf
        unfold studentScan at hsc
        obtain ⟨k2, _, hf2⟩ := List.exists_of_findSome?_eq_some hsc
        unfold trySplitStudent at hf2
        split at hf2
        case isFalse => exact absurd hf2 (by simp)
        case isTrue hcond2 =>
          cases hh2 : hex24Delim (rest.drop (k2 + 1 + 2)) with
          | none => rw [hh2] at hf2; exact absurd hf2 (by simp)
          | some p2 =>
            rw [hh2] at hf2
            rcases p2 with ⟨iGrp2, rest2⟩
            dsimp only at hf2
            have hhp2 := hex24Delim_some hh2
            dsimp only at hhp2
            split at hf2
            case isFalse => exact absurd hf2 (by simp)
            case isTrue htail =>
              rw [Option.some_inj] at hf2
              have hi1 : iGrp2 = iGrp := congrArg Prod.snd hf2
              subst hi1
              refine ⟨?_, hhp.1, hhp.2.1, hhp2.1, hhp2.2.1⟩
              have hr2 : rest2 = rest.drop (k2 + 1 + 2 + 26) := by
                rw [hhp2.2.2, List.drop_drop]
              have hr1 : rest = name.drop (k + 1 + 2 + 26) := by
                rw [hhp.2.2, List.drop_drop]
              rw [hr2, hr1, List.drop_drop] at htail
              exact wsMarkedEndNl_of_tailOk_drop htail

/-- Witness for `codec_roundtrip_amended` at a concrete realistic tuple. -/
theorem codec_roundtrip_witness :
    filenameMatch (addMarked (encodeName "M2 Class".toList
        "aaaa5baa695baa695baa695b".toList "Kerry Irvine".toList
        "695d54695d54695d54695d54".toList "Test 3.pdf".toList))
      = some ⟨"M2 Class".toList, "aaaa5baa695baa695baa695b".toList,
              "Kerry Irvine".toList, "695d54695d54695d54695d54".toList⟩ :=
  codec_roundtrip_amended "M2 Class".toList "Kerry Irvine".toList
    "Test 3.pdf".toList "aaaa5baa695baa695baa695b".toList
    "695d54695d54695d54695d54".toList
    (labelOk_of_checks (by decide) (by decide) (by decide) (by decide))
    (by decide)
    (labelOk_of_checks (by decide) (by decide) (by decide) (by decide))
    (by decide) (by decide) (by decide) (by decide) (by decide) (by decide)

/-- Claim C1 counterexample: the sanitized class label
`safe_part "a___aaaaaaaaaaaaaaaaaaaaaaaa" = "a__aaaaaaaaaaaaaaaaaaaaaaaa"`
contains `__` followed by 24 hex characters, so the lazy `FILENAME_RE`
match splits inside the class label: decode succeeds but returns the
24 `a`s embedded in the class label as the assessment id instead of the
encoded assessment id (the 24 `b`s). The claimed round-trip therefore
fails at this valid sanitized tuple. -/
theorem codec_roundtrip_claim_false :
    safe_part "a___aaaaaaaaaaaaaaaaaaaaaaaa".toList 50
      = "a__aaaaaaaaaaaaaaaaaaaaaaaa".toList ∧
    (filenameMatch (addMarked (encodeName
        (safe_part "a___aaaaaaaaaaaaaaaaaaaaaaaa".toList 50)
        "bbbbbbbbbbbbbbbbbbbbbbbb".toList
        (safe_part "stu".toList 50)
        "cccccccccccccccccccccccc".toList
        (safe_part "doc.pdf".toList 90)))).map (fun g => g.assessment)
      = some "aaaaaaaaaaaaaaaaaaaaaaaa".toList ∧
    "aaaaaaaaaaaaaaaaaaaaaaaa".toList ≠ "bbbbbbbbbbbbbbbbbbbbbbbb".toList := by
  exact ⟨by decide, by decide, by decide⟩

/-- Claim C10: because `FILENAME_RE` is compiled with `re.IGNORECASE` and a
generic `\s` class, decode also accepts 24-character id segments containing
uppercase hex digits (returning them with case preserved), a `Marked` token
in any letter case, and any single whitespace character — not only a space
— before it. -/
theorem decode_laxity (w : Char) (M : List Char)
    (hw : pySpace w = true) (hM6 : M.length = 6)
    (hMlow : M.map Char.toLower = "marked".toList) :
    filenameMatch ("Cls".toList ++ du ++ "ABCDEF0123456789ABCDEF01".toList ++ du
        ++ "Stu".toList ++ du ++ "0123456789ABCDEFabcdef01".toList ++ du
        ++ ("doc".toList ++ w :: (M ++ ".pdf".toList)))
      = some ⟨"Cls".toList, "ABCDEF0123456789ABCDEF01".toList,
              "Stu".toList, "0123456789ABCDEFabcdef01".toList⟩ := by
  apply filenameMatch_canonical
  · decide
  · decide
  · decide
  · decide
  · decide
  · decide
  · decide
  · decide
  · decide
  · decide
  · decide
  · decide
  · exact hw
  · simp [hM6]
  · rw [List.map_append, hMlow]
    decide

/-- Witness for `decode_laxity`: a tab before a mixed-case `mArKeD`. -/
theorem decode_laxity_witness :
    filenameMatch ("Cls".toList ++ du ++ "ABCDEF0123456789ABCDEF01".toList ++ du
        ++ "Stu".toList ++ du ++ "0123456789ABCDEFabcdef01".toList ++ du
        ++ ("doc".toList ++ '\t' :: ("mArKeD".toList ++ ".pdf".toList)))
      = some ⟨"Cls".toList, "ABCDEF0123456789ABCDEF01".toList,
              "Stu".toList, "0123456789ABCDEFabcdef01".toList⟩ :=
  decode_laxity '\t' "mArKeD".toList (by decide) (by decide) (by decide)

/-- Claim C2, amended: whenever `FILENAME_RE` matches, the filename — after
discarding at most one trailing newline, which the `$` anchor tolerates —
ends with one whitespace character (not necessarily a space — see the
counterexample) followed by `Marked.pdf` in any letter case, and the two
recovered id groups are exactly 24 hex characters; for a matched name with
no trailing newline the suffix sits at the very end. Contrapositively, any
filename lacking that suffix, or from which no such 24-hex segments can be
carved, returns no match — as the three concrete rejections illustrate —
while a single trailing newline after the suffix is still accepted (and a
double one is not). An unmatched file is counted as skipped while the
batch continues. -/
theorem codec_rejection_amended {α : Type} (name : List Char) (g : FileGroups)
    (h : Nat → Option α) (fb : Bool) (c : Counters) (rest : List (FileTask α)) :
    (filenameMatch name = some g →
      wsMarkedEndNl name = true ∧
      g.assessment.length = 24 ∧ g.assessment.all hexDigit = true ∧
      g.studentId.length = 24 ∧ g.studentId.all hexDigit = true) ∧
    (filenameMatch name = some g → name.getLast? ≠ some '\n' →
      wsMarkedEnd name = true) ∧
    filenameMatch "cls__zz__stu__cccccccccccccccccccccccc__doc Marked.pdf".toList
      = none ∧
    filenameMatch
      "cls__aaaaaaaaaaaaaaaaaaaaaaa__stu__cccccccccccccccccccccccc__doc Marked.pdf".toList
      = none ∧
    filenameMatch
      "cls__aaaaaaaaaaaaaaaaaaaaaaaa__stu__cccccccccccccccccccccccc__doc.pdf".toList
      = none ∧
    filenameMatch
      "cls__aaaaaaaaaaaaaaaaaaaaaaaa__stu__cccccccccccccccccccccccc__doc Marked.pdf\n".toList
      = some ⟨"cls".toList, "aaaaaaaaaaaaaaaaaaaaaaaa".toList, "stu".toList,
              "cccccccccccccccccccccccc".toList⟩ ∧
    filenameMatch
      "cls__aaaaaaaaaaaaaaaaaaaaaaaa__stu__cccccccccccccccccccccccc__doc Marked.pdf\n\n".toList
      = none ∧
    processFile ⟨none, h, fb⟩ c = { c with skipped := c.skipped + 1 } ∧
    processBatch (⟨none, h, fb⟩ :: rest) c
      = processBatch rest { c with skipped := c.skipped + 1 } := by
  refine ⟨filenameMatch_some name g, ?_, by decide, by decide, by decide,
    by decide, by decide, rfl, rfl⟩
  intro hm hl
  have h1 := (filenameMatch_some name g hm).1
  rw [wsMarkedEndNl_eq_wsMarkedEnd hl] at h1
  exact h1

/-- Witness for `codec_rejection_amended` at a concrete matching name. -/
theorem codec_rejection_witness :
    wsMarkedEndNl
      "cls__aaaaaaaaaaaaaaaaaaaaaaaa__stu__cccccccccccccccccccccccc__doc Marked.pdf".toList
      = true ∧
    wsMarkedEnd
      "cls__aaaaaaaaaaaaaaaaaaaaaaaa__stu__cccccccccccccccccccccccc__doc Marked.pdf".toList
      = true :=
  ⟨((codec_rejection_amended
      "cls__aaaaaaaaaaaaaaaaaaaaaaaa__stu__cccccccccccccccccccccccc__doc Marked.pdf".toList
      ⟨"cls".toList, "aaaaaaaaaaaaaaaaaaaaaaaa".toList, "stu".toList,
       "cccccccccccccccccccccccc".toList⟩
      (fun _ => (none : Option Nat)) true ⟨0, 0, 0⟩ []).1 (by decide)).1,
   (codec_rejection_amended
      "cls__aaaaaaaaaaaaaaaaaaaaaaaa__stu__cccccccccccccccccccccccc__doc Marked.pdf".toList
      ⟨"cls".toList, "aaaaaaaaaaaaaaaaaaaaaaaa".toList, "stu".toList,
       "cccccccccccccccccccccccc".toList⟩
      (fun _ => (none : Option Nat)) true ⟨0, 0, 0⟩ []).2.1 (by decide) (by decide)⟩

/-- Claim C2 counterexample: a filename with a tab (not a space) before
`Marked.pdf` lacks the claimed space-Marked suffix, yet decode matches it,
so "every filename that lacks the space + Marked + .pdf suffix returns no
match" is false as stated. -/
theorem codec_rejection_claim_false :
    spaceMarkedEnd
      "cls__aaaaaaaaaaaaaaaaaaaaaaaa__stu__cccccccccccccccccccccccc__doc\tMarked.pdf".toList
      = false ∧
    filenameMatch
      "cls__aaaaaaaaaaaaaaaaaaaaaaaa__stu__cccccccccccccccccccccccc__doc\tMarked.pdf".toList
      = some ⟨"cls".toList, "aaaaaaaaaaaaaaaaaaaaaaaa".toList, "stu".toList,
              "cccccccccccccccccccccccc".toList⟩ := by
  exact ⟨by decide, by decide⟩

/-! ## Timestamp extraction (claim C6) -/

theorem parseOpt_eq_bind (o : String → Option ℚ) (ov : Option JVal) :
    parseOpt o ov = ov.bind (parse_dt o) := by
  cases ov <;> rfl

mutual

theorem collectTs_eq_filterMap (o : String → Option ℚ) :
    ∀ x : JVal, collectTs o x = (tsRaw x).filterMap (parse_dt o)
  | .null => rfl
  | .bool _ => rfl
  | .num _ => rfl
  | .str _ => rfl
  | .arr xs => by
      simp only [collectTs, tsRaw]
      exact collectTsL_eq_filterMap o xs
  | .obj kvs => by
      simp only [collectTs, tsRaw, List.filterMap_append, List.filterMap_filterMap]
      congr 1
      · apply List.filterMap_congr
        intro k _
        exact parseOpt_eq_bind o (jget kvs k)
      · exact collectTsO_eq_filterMap o kvs

theorem collectTsL_eq_filterMap (o : String → Option ℚ) :
    ∀ xs : List JVal, collectTsL o xs = (tsRawL xs).filterMap (parse_dt o)
  | [] => rfl
  | v :: rest => by
      simp only [collectTsL, tsRawL, List.filterMap_append]
      rw [collectTs_eq_filterMap o v, collectTsL_eq_filterMap o rest]

theorem collectTsO_eq_filterMap (o : String → Option ℚ) :
    ∀ kvs : List (String × JVal), collectTsO o kvs = (tsRawO kvs).filterMap (parse_dt o)
  | [] => rfl
  | (_, v) :: rest => by
      simp only [collectTsO, tsRawO, List.filterMap_append]
      rw [collectTs_eq_filterMap o v, collectTsO_eq_filterMap o rest]

end

theorem parse_dtR_ok (o : String → Option ℚ) (v : JVal) (d : Option ℚ)
    (h : parse_dtR o v = .ok d) : parse_dt o v = d := by
  cases v with
  | num q =>
    simp only [parse_dtR] at h
    simp only [parse_dt]
    split_ifs at h ⊢ <;> injection h
  | bool b => injection h
  | str s => injection h
  | null => injection h
  | arr xs => injection h
  | obj kvs => injection h

theorem parseOptR_ok (o : String → Option ℚ) (ov : Option JVal) (d : Option ℚ)
    (h : parseOptR o ov = .ok d) : parseOpt o ov = d := by
  cases ov with
  | none => injection h
  | some v => exact parse_dtR_ok o v d h

theorem keysTsR_ok (o : String → Option ℚ) (kvs : List (String × JVal)) :
    ∀ (ks : List String) (l : List ℚ), keysTsR o kvs ks = .ok l →
      ks.filterMap (fun k => parseOpt o (jget kvs k)) = l
  | [], _, h => by injection h
  | k :: ks, l, h => by
      simp only [keysTsR] at h
      cases h1 : parseOptR o (jget kvs k) with
      | error e => rw [h1] at h; exact Except.noConfusion h
      | ok d =>
        rw [h1] at h
        dsimp only at h
        cases h2 : keysTsR o kvs ks with
        | error e => rw [h2] at h; exact Except.noConfusion h
        | ok r =>
          rw [h2] at h
          dsimp only at h
          injection h with h
          rw [← h]
          have e2 := keysTsR_ok o kvs ks r h2
          cases d with
          | none =>
            have e1 : parseOpt o (jget kvs k) = none := parseOptR_ok o _ none h1
            simp [List.filterMap_cons, e1, e2]
          | some b =>
            have e1 : parseOpt o (jget kvs k) = some b := parseOptR_ok o _ (some b) h1
            simp [List.filterMap_cons, e1, e2]

mutual

theorem collectTsR_ok (o : String → Option ℚ) :
    ∀ (x : JVal) (l : List ℚ), collectTsR o x = .ok l → collectTs o x = l
  | .null, _, h => by injection h
  | .bool _, _, h => by injection h
  | .num _, _, h => by injection h
  | .str _, _, h => by injection h
  | .arr xs, l, h => by
      have hx : collectTsRL o xs = .ok l := h
      simp only [collectTs]
      exact collectTsRL_ok o xs l hx
  | .obj kvs, l, h => by
      simp only [collectTsR] at h
      cases h1 : keysTsR o kvs COMMON_KEYS with
      | error e => rw [h1] at h; exact Except.noConfusion h
      | ok l1 =>
        rw [h1] at h
        dsimp only at h
        cases h2 : collectTsRO o kvs with
        | error e => rw [h2] at h; exact Except.noConfusion h
        | ok l2 =>
          rw [h2] at h
          dsimp only at h
          injection h with h
          simp only [collectTs]
          rw [keysTsR_ok o kvs COMMON_KEYS l1 h1, collectTsRO_ok o kvs l2 h2, h]

theorem collectTsRO_ok (o : String → Option ℚ) :
    ∀ (kvs : List (String × JVal)) (l : List ℚ),
      collectTsRO o kvs = .ok l → collectTsO o kvs = l
  | [], _, h => by injection h
  | (_, v) :: rest, l, h => by
      simp only [collectTsRO] at h
      cases h1 : collectTsR o v with
      | error e => rw [h1] at h; exact Except.noConfusion h
      | ok a =>
        rw [h1] at h
        dsimp only at h
        cases h2 : collectTsRO o rest with
        | error e => rw [h2] at h; exact Except.noConfusion h
        | ok b =>
          rw [h2] at h
          dsimp only at h
          injection h with h
          simp only [collectTsO]
          rw [collectTsR_ok o v a h1, collectTsRO_ok o rest b h2, h]

theorem collectTsRL_ok (o : String → Option ℚ) :
    ∀ (xs : List JVal) (l : List ℚ),
      collectTsRL o xs = .ok l → collectTsL o xs = l
  | [], _, h => by injection h
  | v :: rest, l, h => by
      simp only [collectTsRL] at h
      cases h1 : collectTsR o v with
      | error e => rw [h1] at h; exact Except.noConfusion h
      | ok a =>
        rw [h1] at h
        dsimp only at h
        cases h2 : collectTsRL o rest with
        | error e => rw [h2] at h; exact Except.noConfusion h
        | ok b =>
          rw [h2] at h
          dsimp only at h
          injection h with h
          simp only [collectTsL]
          rw [collectTsR_ok o v a h1, collectTsRL_ok o rest b h2, h]

end

theorem find_any_timestampR_ok (o : String → Option ℚ) (x : JVal) (d : Option ℚ)
    (h : find_any_timestampR o x = .ok d) : find_any_timestamp o x = d := by
  unfold find_any_timestampR at h
  cases hc : collectTsR o x with
  | error e => rw [hc] at h; exact Except.noConfusion h
  | ok l =>
    rw [hc] at h
    dsimp only at h
    injection h with h
    unfold find_any_timestamp
    rw [collectTsR_ok o x l hc, h]

/-- Claim C6, amended: when the recursive walk completes without a range
error, `find_any_timestamp` returns exactly the maximum of the instants
parsed from the values sitting under the fixed timestamp aliases anywhere
in the record (all modelled in UTC epoch-seconds), and `None` exactly when
no value parses. A nonzero numeric value strictly above 10,000,000,000 is
read as epoch-milliseconds and any other nonzero numeric value as
epoch-seconds — but only when the resulting seconds value lies in
`datetime`'s representable range: outside it, `datetime.fromtimestamp`
raises a `ValueError` that no handler catches (the numeric branch of
`parse_dt` sits outside its `try`), aborting `find_any_timestamp`; and the
numeric value 0 is turned into "unparseable" by the falsy guard — see the
counterexample for both divergences from the original claim. -/
theorem find_any_timestamp_amended (o : String → Option ℚ) (x : JVal) (q v : ℚ) :
    (∀ d, find_any_timestampR o x = .ok d →
      d = ((tsRaw x).filterMap (parse_dt o)).max?) ∧
    (v ≠ 0 → tsInRange (if 10000000000 < v then v / 1000 else v) = true →
      parse_dtR o (.num v) = .ok (some (if 10000000000 < v then v / 1000 else v))) ∧
    (v ≠ 0 → tsInRange (if 10000000000 < v then v / 1000 else v) = false →
      parse_dtR o (.num v) = .error ()) ∧
    (find_any_timestampR o x = .ok none ↔ collectTsR o x = .ok []) ∧
    (find_any_timestampR o x = .ok (some q) →
      q ∈ (tsRaw x).filterMap (parse_dt o) ∧
      ∀ r ∈ (tsRaw x).filterMap (parse_dt o), r ≤ q) := by
  have h1 : ∀ d, find_any_timestampR o x = .ok d →
      d = ((tsRaw x).filterMap (parse_dt o)).max? := by
    intro d hd
    have he := find_any_timestampR_ok o x d hd
    rw [← he]
    unfold find_any_timestamp
    rw [collectTs_eq_filterMap]
  have hsome : ∀ a : ℚ, ∀ l : List ℚ, l.max? = some a ↔ a ∈ l ∧ ∀ b ∈ l, b ≤ a := by
    intro a l
    have hanti : Std.Antisymm (fun (r s : ℚ) => r ≤ s) := ⟨@fun r s h1 h2 => le_antisymm h1 h2⟩
    exact @List.max?_eq_some_iff ℚ a _ _ hanti (fun r => le_refl r)
      (fun r s => max_choice r s) (fun r s t => max_le_iff) l
  refine ⟨h1, ?_, ?_, ?_, ?_⟩
  · intro hv hr
    simp only [parse_dtR, if_neg hv]
    by_cases hb : (10000000000 : ℚ) < v
    · rw [if_pos hb] at hr
      rw [if_pos hb, if_pos hr, if_pos hb]
    · rw [if_neg hb] at hr
      rw [if_neg hb, if_pos hr, if_neg hb]
  · intro hv hr
    simp only [parse_dtR, if_neg hv]
    by_cases hb : (10000000000 : ℚ) < v
    · rw [if_pos hb] at hr
      rw [if_pos hb, if_neg (by rw [hr]; exact Bool.false_ne_true)]
    · rw [if_neg hb] at hr
      rw [if_neg hb, if_neg (by rw [hr]; exact Bool.false_ne_true)]
  · unfold find_any_timestampR
    cases hc : collectTsR o x with
    | error e =>
      constructor
      · intro hh; exact Except.noConfusion hh
      · intro hh; exact Except.noConfusion hh
    | ok l =>
      dsimp only
      constructor
      · intro hh
        injection hh with hh
        rw [List.max?_eq_none_iff] at hh
        rw [hh]
      · intro hh
        injection hh with hh
        subst hh
        rfl
  · intro hq
    have hqe := h1 (some q) hq
    exact (hsome q _).1 hqe.symm

/-- Witness for `find_any_timestamp_amended`: the in-range millisecond
value 20,000,000,000 parses to the instant 20,000,000, and a record whose
only timestamp field holds the numeric value 100 completes without error
and yields the instant 100 as the maximum of the single parsed value. -/
theorem find_any_timestamp_witness :
    parse_dtR (fun _ => none) (.num 20000000000) = .ok (some 20000000) ∧
    (100 : ℚ) ∈ (tsRaw (.obj [("time", .num 100)])).filterMap
      (parse_dt (fun _ => none)) := by
  constructor
  · have h := (find_any_timestamp_amended (fun _ => none)
        (.obj [("time", .num 100)]) 100 20000000000).2.1
        (by norm_num)
        (by rw [if_pos (by norm_num : (10000000000 : ℚ) < 20000000000),
                (by norm_num : (20000000000 : ℚ) / 1000 = 20000000)]
            rfl)
    rw [if_pos (by norm_num : (10000000000 : ℚ) < 20000000000),
        (by norm_num : (20000000000 : ℚ) / 1000 = 20000000)] at h
    exact h
  · exact ((find_any_timestamp_amended (fun _ => none)
      (.obj [("time", .num 100)]) 100 20000000000).2.2.2.2 (by rfl)).1

theorem find_any_timestampR_time_err (o : String → Option ℚ) (v : JVal)
    (he : parse_dtR o v = .error ()) :
    find_any_timestampR o (.obj [("time", v)]) = .error () := by
  have hk : keysTsR o [("time", v)] COMMON_KEYS = .error () := by
    simp [keysTsR, COMMON_KEYS, parseOptR, jget, he]
  unfold find_any_timestampR collectTsR
  rw [hk]

/-- Claim C6 counterexample: at `{"time": 10^15}` the original claim
predicts the millisecond reading 10^12 as the returned maximum, but
`datetime.fromtimestamp(10^12, tz=utc)` lies outside `datetime`'s year
range and the uncaught `ValueError` aborts `find_any_timestamp`; likewise
at `{"time": -7*10^10}` in the epoch-seconds branch; and at `{"time": 0}`
the falsy guard yields no instant rather than the epoch instant 0. -/
theorem find_any_timestamp_claim_false :
    find_any_timestampR (fun _ => none) (.obj [("time", .num 1000000000000000)])
      = .error () ∧
    find_any_timestampR (fun _ => none) (.obj [("time", .num (-70000000000))])
      = .error () ∧
    find_any_timestampR (fun _ => none) (.obj [("time", .num 0)]) = .ok none ∧
    find_any_timestamp (fun _ => none) (.obj [("time", .num 0)]) ≠ some 0 := by
  have hp1 : parse_dtR (fun _ => (none : Option ℚ)) (.num 1000000000000000)
      = .error () := by
    simp only [parse_dtR]
    rw [if_neg (by norm_num : ¬(1000000000000000 : ℚ) = 0),
        if_pos (by norm_num : (10000000000 : ℚ) < 1000000000000000),
        (by norm_num : (1000000000000000 : ℚ) / 1000 = 1000000000000),
        if_neg (by decide : ¬ tsInRange (1000000000000 : ℚ) = true)]
  refine ⟨find_any_timestampR_time_err _ _ hp1, by rfl, by rfl, by decide⟩

/-! ## Submission-list discovery (claim C3) -/

mutual

theorem fslWalk_sound : ∀ (x : JVal) (path p : String) (xs : List JVal),
    (p, xs) ∈ fslWalk x path → fslCandidate xs = true ∧ ArrOccurs xs x
  | .null, _, _, _ => by intro h; simp [fslWalk] at h
  | .bool _, _, _, _ => by intro h; simp [fslWalk] at h
  | .num _, _, _, _ => by intro h; simp [fslWalk] at h
  | .str _, _, _, _ => by intro h; simp [fslWalk] at h
  | .obj kvs, path, p, xs => by
    intro h
    obtain ⟨hc, k, v, hkv, hocc⟩ := fslWalkO_sound kvs path p xs h
    exact ⟨hc, ArrOccurs.inObj hkv hocc⟩
  | .arr l, path, p, xs => by
    intro h
    simp only [fslWalk] at h
    rw [List.mem_append] at h
    rcases h with h | h
    · by_cases hc : fslCandidate l = true
      · rw [if_pos hc] at h
        rw [List.mem_singleton, Prod.mk.injEq] at h
        rw [← h.2]
        exact ⟨by rw [h.2]; exact hc, by rw [h.2]; exact ArrOccurs.here l⟩
      · rw [if_neg hc] at h
        simp at h
    · obtain ⟨hc, v, hv, hocc⟩ := fslWalkL_sound l path 0 p xs h
      exact ⟨hc, ArrOccurs.inArr hv hocc⟩

theorem fslWalkO_sound : ∀ (kvs : List (String × JVal)) (path p : String)
    (xs : List JVal), (p, xs) ∈ fslWalkO kvs path →
    fslCandidate xs = true ∧ ∃ k v, (k, v) ∈ kvs ∧ ArrOccurs xs v
  | [], _, _, _ => by intro h; simp [fslWalkO] at h
  | (k, v) :: rest, path, p, xs => by
    intro h
    simp only [fslWalkO] at h
    rw [List.mem_append] at h
    rcases h with h | h
    · have hs := fslWalk_sound v (childPath path k) p xs h
      exact ⟨hs.1, k, v, List.mem_cons_self _ _, hs.2⟩
    · obtain ⟨hc, k2, v2, hkv, hocc⟩ := fslWalkO_sound rest path p xs h
      exact ⟨hc, k2, v2, List.mem_cons_of_mem _ hkv, hocc⟩

theorem fslWalkL_sound : ∀ (l : List JVal) (path : String) (idx : Nat)
    (p : String) (xs : List JVal), (p, xs) ∈ fslWalkL l path idx →
    fslCandidate xs = true ∧ ∃ v ∈ l, ArrOccurs xs v
  | [], _, _, _, _ => by intro h; simp [fslWalkL] at h
  | v :: rest, path, idx, p, xs => by
    intro h
    simp only [fslWalkL] at h
    rw [List.mem_append] at h
    rcases h with h | h
    · have hs := fslWalk_sound v (path ++ "[" ++ toString idx ++ "]") p xs h
      exact ⟨hs.1, v, List.mem_cons_self _ _, hs.2⟩
    · obtain ⟨hc, v2, hv, hocc⟩ := fslWalkL_sound rest path (idx + 1) p xs h
      exact ⟨hc, v2, List.mem_cons_of_mem _ hv, hocc⟩

end

mutual

theorem fslWalk_complete : ∀ (x : JVal) (xs : List JVal), ArrOccurs xs x →
    fslCandidate xs = true → ∀ path, ∃ p, (p, xs) ∈ fslWalk x path
  | .null, xs, hocc, _ => by cases hocc
  | .bool _, xs, hocc, _ => by cases hocc
  | .num _, xs, hocc, _ => by cases hocc
  | .str _, xs, hocc, _ => by cases hocc
  | .obj kvs, xs, hocc, hc => by
    intro path
    cases hocc with
    | inObj hkv hocc2 =>
      exact fslWalkO_complete kvs _ _ hkv hocc2 hc path
  | .arr l, xs, hocc, hc => by
    intro path
    cases hocc with
    | here =>
      refine ⟨path, ?_⟩
      simp only [fslWalk]
      rw [List.mem_append]
      left
      rw [if_pos hc]
      exact List.mem_singleton.2 rfl
    | inArr hv hocc2 =>
      obtain ⟨p, hp⟩ := fslWalkL_complete l _ _ hv hocc2 hc path 0
      refine ⟨p, ?_⟩
      simp only [fslWalk]
      rw [List.mem_append]
      exact Or.inr hp

theorem fslWalkO_complete : ∀ (kvs : List (String × JVal)) (kv : String × JVal)
    (xs : List JVal), kv ∈ kvs → ArrOccurs xs kv.2 → fslCandidate xs = true →
    ∀ path, ∃ p, (p, xs) ∈ fslWalkO kvs path
  | [], kv, xs, hkv => by intro _ _ _; simp at hkv
  | (k, v) :: rest, kv, xs, hkv => by
    intro hocc hc path
    rcases List.mem_cons.1 hkv with heq | hmem
    · subst heq
      obtain ⟨p, hp⟩ := fslWalk_complete v xs hocc hc (childPath path k)
      refine ⟨p, ?_⟩
      simp only [fslWalkO]
      rw [List.mem_append]
      exact Or.inl hp
    · obtain ⟨p, hp⟩ := fslWalkO_complete rest kv xs hmem hocc hc path
      refine ⟨p, ?_⟩
      simp only [fslWalkO]
      rw [List.mem_append]
      exact Or.inr hp

theorem fslWalkL_complete : ∀ (l : List JVal) (v : JVal) (xs : List JVal),
    v ∈ l → ArrOccurs xs v → fslCandidate xs = true →
    ∀ (path : String) (idx : Nat), ∃ p, (p, xs) ∈ fslWalkL l path idx
  | [], v, xs, hv => by intro _ _ _ _; simp at hv
  | w :: rest, v, xs, hv => by
    intro hocc hc path idx
    rcases List.mem_cons.1 hv with heq | hmem
    · subst heq
      obtain ⟨p, hp⟩ := fslWalk_complete v xs hocc hc (path ++ "[" ++ toString idx ++ "]")
      refine ⟨p, ?_⟩
      simp only [fslWalkL]
      rw [List.mem_append]
      exact Or.inl hp
    · obtain ⟨p, hp⟩ := fslWalkL_complete rest v xs hmem hocc hc path (idx + 1)
      refine ⟨p, ?_⟩
      simp only [fslWalkL]
      rw [List.mem_append]
      exact Or.inr hp

end

theorem pick_foldl_max : ∀ (rest : List (String × List JVal)) (c : String × List JVal),
    (rest.foldl (fun best x => if best.2.length < x.2.length then x else best) c = c ∨
     rest.foldl (fun best x => if best.2.length < x.2.length then x else best) c ∈ rest) ∧
    c.2.length ≤ (rest.foldl (fun best x => if best.2.length < x.2.length then x else best) c).2.length ∧
    ∀ q ∈ rest, q.2.length ≤ (rest.foldl (fun best x => if best.2.length < x.2.length then x else best) c).2.length := by
  intro rest
  induction rest with
  | nil => intro c; exact ⟨Or.inl rfl, le_refl _, by simp⟩
  | cons x rest ih =>
    intro c
    simp only [List.foldl_cons]
    by_cases hx : c.2.length < x.2.length
    · rw [if_pos hx]
      obtain ⟨hmem, hle, hall⟩ := ih x
      refine ⟨?_, ?_, ?_⟩
      · rcases hmem with h | h
        · exact Or.inr (by rw [h]; exact List.mem_cons_self _ _)
        · exact Or.inr (List.mem_cons_of_mem _ h)
      · omega
      · intro q hq
        rcases List.mem_cons.1 hq with h | h
        · subst h; exact hle
        · exact hall q h
    · rw [if_neg hx]
      obtain ⟨hmem, hle, hall⟩ := ih c
      refine ⟨?_, hle, ?_⟩
      · rcases hmem with h | h
        · exact Or.inl h
        · exact Or.inr (List.mem_cons_of_mem _ h)
      intro q hq
      rcases List.mem_cons.1 hq with h | h
      · subst h; omega
      · exact hall q h

theorem pickLargest_max (cands : List (String × List JVal))
    (sel : String × List JVal) (h : pickLargest cands = some sel) :
    sel ∈ cands ∧ ∀ q ∈ cands, q.2.length ≤ sel.2.length := by
  cases cands with
  | nil => exact absurd h (by simp [pickLargest])
  | cons c rest =>
    unfold pickLargest at h
    rw [Option.some_inj] at h
    obtain ⟨hmem, hle, hall⟩ := pick_foldl_max rest c
    rw [h] at hmem hle hall
    refine ⟨?_, ?_⟩
    · rcases hmem with h2 | h2
      · exact h2 ▸ List.mem_cons_self _ _
      · exact List.mem_cons_of_mem _ h2
    · intro q hq
      rcases List.mem_cons.1 hq with h2 | h2
      · subst h2; exact hle
      · exact hall q h2

/-- Claim C3: an array node is a candidate iff it is non-empty, all its
elements are dicts, and at least one of its first 10 elements carries a
submission-shaped key; the walk reports exactly the candidate arrays
occurring anywhere in the document; the selection step picks a candidate
of maximal length; and on the two-array scenario document the 5-element
`studentId`/`attachments` array is selected. -/
theorem submission_discovery (doc : JVal) (xs : List JVal) (p : String)
    (cands : List (String × List JVal)) (sel : String × List JVal) :
    (fslCandidate xs = true ↔ xs ≠ [] ∧ (∀ v ∈ xs, isObjV v = true) ∧
        ∃ v ∈ xs.take 10, looksLikeSubmission v = true) ∧
    ((p, xs) ∈ find_submission_lists_anywhere doc →
        fslCandidate xs = true ∧ ArrOccurs xs doc) ∧
    (ArrOccurs xs doc → fslCandidate xs = true →
        ∃ q, (q, xs) ∈ find_submission_lists_anywhere doc) ∧
    (pickLargest cands = some sel →
        sel ∈ cands ∧ ∀ q ∈ cands, q.2.length ≤ sel.2.length) ∧
    (pickLargest (find_submission_lists_anywhere scenarioDoc)).map (fun t => t.2)
      = some [scenarioSubmission "s1", scenarioSubmission "s2", scenarioSubmission "s3",
              scenarioSubmission "s4", scenarioSubmission "s5"] := by
  refine ⟨?_, ?_, ?_, pickLargest_max cands sel, ?_⟩
  · unfold fslCandidate subScore
    rw [Bool.and_eq_true, Bool.and_eq_true]
    constructor
    · rintro ⟨⟨h1, h2⟩, h3⟩
      refine ⟨by simpa using h1, List.all_eq_true.1 h2, ?_⟩
      rw [decide_eq_true_eq] at h3
      exact List.countP_pos.1 h3
    · rintro ⟨h1, h2, h3⟩
      exact ⟨⟨by simpa using h1, List.all_eq_true.2 h2⟩,
        by rw [decide_eq_true_eq]; exact List.countP_pos.2 h3⟩
  · exact fslWalk_sound doc "" p xs
  · intro hocc hc
    exact fslWalk_complete doc xs hocc hc ""
  · rfl

/-- Witness for `submission_discovery`: the candidacy test and the
selection bound at concrete inputs. -/
theorem submission_discovery_witness :
    ([scenarioSubmission "s1"] ≠ [] ∧
     (∀ v ∈ [scenarioSubmission "s1"], isObjV v = true) ∧
     ∃ v ∈ [scenarioSubmission "s1"].take 10, looksLikeSubmission v = true) ∧
    (("a", [JVal.null]) ∈ [("a", [JVal.null])] ∧
     ∀ q ∈ [("a", [JVal.null])], q.2.length ≤ ([JVal.null] : List JVal).length) :=
  ⟨(submission_discovery scenarioDoc [scenarioSubmission "s1"] "" [] ("", [])).1.mp
    (by rfl),
   (submission_discovery scenarioDoc [scenarioSubmission "s1"] ""
     [("a", [JVal.null])] ("a", [JVal.null])).2.2.2.1 (by rfl)⟩
